import Mathlib

/-!
Shallow embedding of the DySECT-style Robin-Hood hash table from
`src/hash_map.h` (the Robin-Hood revision, also present verbatim in
`src/unnamed/part_000`).  The table is a fixed directory of 8 `SubTable`s;
each `SubTable` is an open-addressed Robin-Hood table over a vector of
reference-counted `Bucket_` cells.

Modelling decisions:
* keys and values are arbitrary types with decidable equality; the
  user-supplied hash functor is an explicit function `hash : K → Nat`
  (C++ `size_t` values are unbounded here, only `% capacity` and `& 7`
  reductions are applied, as in the source);
* a `Bucket_`'s `value_` plus `is_deleted_` flag pair is modelled as an
  `Option (K × V)` payload (`none` ↔ `is_deleted_ = true`); the stale
  `psl_` of a deleted bucket is kept, as the source keeps it;
* the source's unguarded `while` loops are modelled with explicit fuel,
  always instantiated with `capacity` at call sites (one fuel unit per
  visited slot); `none` means the loop would have visited more than
  `capacity` slots.  The termination claims show this never happens on
  valid states;
* the resize trigger `(double)capacity_ * load_factor_ <= (double)size_`
  with `load_factor_ = 0.5` is modelled exactly as `capacity ≤ 2 * size`:
  capacities are powers of two, so `capacity * 0.5` is computed exactly
  by the double arithmetic of the source.
-/

namespace Dysect

/-- A slot of the open-addressed array (source `SubTable::Bucket_`):
`payload = none` models `is_deleted_ = true`. -/
structure Bucket (K V : Type) where
  payload : Option (K × V)
  psl : Nat
deriving DecidableEq

/-- A fresh empty bucket, as built by `InitializedElements`. -/
def emptyBucket {K V : Type} : Bucket K V := ⟨none, 0⟩

instance {K V : Type} : Inhabited (Bucket K V) := ⟨emptyBucket⟩

/-- State of one `SubTable` (hash functor kept outside the state). -/
structure SubTable (K V : Type) where
  size : Nat
  capacity : Nat
  table : List (Bucket K V)
deriving DecidableEq

/-- A freshly constructed subtable: `size_ = 0`, `capacity_ = 8`, all
slots initialised empty (`SubTable::SubTable` + `InitializedElements`). -/
def initSubTable {K V : Type} : SubTable K V :=
  ⟨0, 8, List.replicate 8 emptyBucket⟩

instance {K V : Type} : Inhabited (SubTable K V) := ⟨initSubTable⟩

/-- `SubTable::NextPos`. -/
def NextPos (cap position : Nat) : Nat :=
  if position + 1 = cap then 0 else position + 1

/-- `SubTable::PrevPos`. -/
def PrevPos (cap position : Nat) : Nat :=
  if position = 0 then cap - 1 else position - 1

/-- The bucket stored at index `i` (out-of-range reads, which the source
never performs on valid states, yield an empty bucket). -/
def bkt {K V : Type} (t : List (Bucket K V)) (i : Nat) : Bucket K V :=
  t.getD i emptyBucket

variable {K V : Type} [DecidableEq K] [DecidableEq V]

/-- The probe loop shared by both `find` overloads and by the search part
of `erase`: starting at `position` with walk distance `psl`, walk while
the slot is occupied and its stored PSL is `≥ psl`, returning the first
slot holding `key`; `some none` is a miss, outer `none` is fuel
exhaustion. -/
def findFrom (cap : Nat) (t : List (Bucket K V)) (key : K) :
    Nat → Nat → Nat → Option (Option Nat)
  | _, _, 0 => none
  | position, psl, fuel + 1 =>
    match (bkt t position).payload with
    | none => some none
    | some kv =>
      if (bkt t position).psl < psl then some none
      else if kv.1 = key then some (some position)
      else findFrom cap t key (NextPos cap position) (psl + 1) fuel

/-- `SubTable::find` (iterator result abstracted to the slot index). -/
def SubTable.find (hash : K → Nat) (s : SubTable K V) (key : K) :
    Option (Option Nat) :=
  findFrom s.capacity s.table key (hash key % s.capacity) 0 s.capacity

/-- `SubTable::IsExist`. -/
def SubTable.IsExist (hash : K → Nat) (s : SubTable K V) (key : K) :
    Option Bool :=
  (s.find hash key).map Option.isSome

/-- First loop of `SubTable::InsertElement`: walk from the home slot while
the candidate PSL is `≤` the resident's PSL and the slot is occupied;
returns the stopping position and the candidate PSL there. -/
def probeStart (cap : Nat) (t : List (Bucket K V)) :
    Nat → Nat → Nat → Option (Nat × Nat)
  | _, _, 0 => none
  | position, psl, fuel + 1 =>
    if psl ≤ (bkt t position).psl ∧ (bkt t position).payload.isSome then
      probeStart cap t (NextPos cap position) (psl + 1) fuel
    else some (position, psl)

/-- `std::swap(table_[i], table_[j])` on the modelled slot array. -/
def swapBuckets (t : List (Bucket K V)) (i j : Nat) : List (Bucket K V) :=
  (t.set i (bkt t j)).set j (bkt t i)

/-- `table_[i].get()->psl_++`. -/
def bumpPsl (t : List (Bucket K V)) (i : Nat) : List (Bucket K V) :=
  t.set i ⟨(bkt t i).payload, (bkt t i).psl + 1⟩

/-- Second loop of `SubTable::InsertElement`: while the stop slot is
occupied, advance `current`, swap the slot at `current` with the stop
slot and increment the PSL at `current` — this shifts the whole occupied
run starting at the stop slot forward by one position. -/
def shiftLoop (cap start : Nat) :
    List (Bucket K V) → Nat → Nat → Option (List (Bucket K V))
  | _, _, 0 => none
  | t, current, fuel + 1 =>
    if (bkt t start).payload.isSome then
      let current' := NextPos cap current
      shiftLoop cap start (bumpPsl (swapBuckets t current' start) current') current' fuel
    else some t

/-- `SubTable::InsertElement`. -/
def SubTable.InsertElement (hash : K → Nat) (s : SubTable K V)
    (element : K × V) : Option (SubTable K V) := do
  let sp ← probeStart s.capacity s.table (hash element.1 % s.capacity) 0 s.capacity
  let t ← shiftLoop s.capacity sp.1 s.table sp.1 s.capacity
  pure { s with table := t.set sp.1 ⟨some element, sp.2⟩ }

/-- `SubTable::ReHash`: double the capacity, reinitialise the array and
re-insert every live entry of the old array in slot order. -/
def SubTable.ReHash (hash : K → Nat) (s : SubTable K V) :
    Option (SubTable K V) :=
  s.table.foldlM
    (fun acc b =>
      match b.payload with
      | none => pure acc
      | some kv => acc.InsertElement hash kv)
    { s with capacity := s.capacity * 2,
             table := List.replicate (s.capacity * 2) emptyBucket }

/-- `SubTable::insert`: insert if absent, bump `size_`, resize when the
load factor is reached; `true` iff a new element was stored. -/
def SubTable.insert (hash : K → Nat) (s : SubTable K V)
    (element : K × V) : Option (Bool × SubTable K V) := do
  let found ← s.find hash element.1
  match found with
  | some _ => pure (false, s)
  | none =>
    let s1 ← s.InsertElement hash element
    let s2 : SubTable K V := { s1 with size := s1.size + 1 }
    if s2.capacity ≤ 2 * s2.size then
      let s3 ← s2.ReHash hash
      pure (true, s3)
    else
      pure (true, s2)

/-- Back-shift loop of `SubTable::erase`: while the slot at `position` is
occupied with positive PSL, swap it with its predecessor and decrement
its (now moved) PSL. -/
def backshiftLoop (cap : Nat) :
    List (Bucket K V) → Nat → Nat → Option (List (Bucket K V))
  | _, _, 0 => none
  | t, position, fuel + 1 =>
    if (bkt t position).payload.isSome ∧ 0 < (bkt t position).psl then
      let prev := PrevPos cap position
      let t1 := swapBuckets t position prev
      let t2 := t1.set prev ⟨(bkt t1 prev).payload, (bkt t1 prev).psl - 1⟩
      backshiftLoop cap t2 (NextPos cap position) fuel
    else some t

/-- `SubTable::erase`: search exactly as `find` does, and on a hit mark
the slot deleted, decrement `size_` and run back-shift compaction. -/
def SubTable.erase (hash : K → Nat) (s : SubTable K V) (key : K) :
    Option (Bool × SubTable K V) := do
  let found ← findFrom s.capacity s.table key (hash key % s.capacity) 0 s.capacity
  match found with
  | none => pure (false, s)
  | some position =>
    let t1 := s.table.set position ⟨none, (bkt s.table position).psl⟩
    let t2 ← backshiftLoop s.capacity t1 (NextPos s.capacity position) s.capacity
    pure (true, { s with table := t2, size := s.size - 1 })

/-- `SubTable::at` (named `at'`, `at` being reserved in Lean):
`some (some v)` returns `v`, `some none` is the *missing-key* failure
(`std::out_of_range`). -/
def SubTable.at' (hash : K → Nat) (s : SubTable K V) (key : K) :
    Option (Option V) := do
  let found ← s.find hash key
  match found with
  | some position => pure ((bkt s.table position).payload.map Prod.snd)
  | none => pure none

/-- State effect of `SubTable::operator[]`: insert `(key, ValueType())`
(the default value `v0`), then the reference is served by `find`. -/
def SubTable.index (hash : K → Nat) (s : SubTable K V) (key : K) (v0 : V) :
    Option (SubTable K V) :=
  (s.insert hash (key, v0)).map Prod.snd

/-- `SubTable::clear`: back to `size_ = 0`, `capacity_ = 8`, fresh slots. -/
def SubTable.clear (s : SubTable K V) : SubTable K V :=
  { s with size := 0, capacity := 8, table := List.replicate 8 emptyBucket }

/-- One public mutating operation on a subtable. -/
inductive SubOp (K V : Type) where
  | ins (element : K × V)
  | del (key : K)
  | idx (key : K) (v0 : V)
  | clr

/-- Run one public operation (state part). -/
def SubTable.step (hash : K → Nat) (s : SubTable K V) :
    SubOp K V → Option (SubTable K V)
  | .ins e => (s.insert hash e).map Prod.snd
  | .del k => (s.erase hash k).map Prod.snd
  | .idx k v0 => s.index hash k v0
  | .clr => some s.clear

/-- Run a sequence of public operations from a given state. -/
def runSub (hash : K → Nat) : List (SubOp K V) → SubTable K V → Option (SubTable K V)
  | [], s => some s
  | op :: ops, s => (s.step hash op).bind (runSub hash ops)

/-! ### The spec's insertion algorithm (for claim C1)

`spec.md` §4.2 describes insertion as a recursive evict-and-reinsert:
walk while the slot is occupied with stored PSL ≥ candidate PSL; place on
an empty slot; otherwise evict the resident, write the newcomer with the
candidate PSL, and continue placing the evicted payload from the same
index with candidate PSL its previous PSL + 1 (ties keep the resident).
This is formalised here verbatim, to be compared with `InsertElement`. -/

/-- One placement walk of the spec's algorithm (§4.2 steps 1–3). -/
def specPlace (cap : Nat) :
    List (Bucket K V) → K × V → Nat → Nat → Nat → Option (List (Bucket K V))
  | _, _, _, _, 0 => none
  | t, e, position, p, fuel + 1 =>
    match (bkt t position).payload with
    | none => some (t.set position ⟨some e, p⟩)
    | some resident =>
      if p ≤ (bkt t position).psl then
        specPlace cap t e (NextPos cap position) (p + 1) fuel
      else
        specPlace cap (t.set position ⟨some e, p⟩) resident position
          ((bkt t position).psl + 1) fuel

/-- The spec's probe algorithm for inserting a payload, starting at the
key's home slot with candidate PSL 0. -/
def specInsert (hash : K → Nat) (s : SubTable K V) (element : K × V) :
    Option (SubTable K V) :=
  (specPlace s.capacity s.table element (hash element.1 % s.capacity) 0
      (s.capacity * s.capacity + 1)).map
    (fun t => { s with table := t })

/-! ### Pointwise description of the shift performed by `InsertElement`

`InsertElement` stops its probe walk at a slot `start` with candidate PSL
`p`, then shifts the whole contiguous occupied run `start, start+1, …,
start+r-1` (mod capacity, `start+r` being the first empty slot) forward
by one position, incrementing each shifted PSL, and writes the payload at
`start` with PSL `p`.  `shiftTable` is that table transformation stated
pointwise; the amended claim C1 is `InsertElement = shiftSpec`. -/

/-- Forward distance from `a` to `b` on the ring of `cap` slots. -/
def ringDist (cap a b : Nat) : Nat := (b + cap - a % cap) % cap

/-- The run shift: slot `start` receives the (empty) content of slot
`start + r`, and each slot `start + u + 1` (`u < r`) receives the bucket
of slot `start + u` with its PSL incremented. -/
def shiftTable (cap start r : Nat) (t : List (Bucket K V)) :
    List (Bucket K V) :=
  (List.range cap).map (fun pos =>
    let u := ringDist cap start pos
    if u = 0 then bkt t ((start + r) % cap)
    else if u ≤ r then
      ⟨(bkt t ((start + (u - 1)) % cap)).payload,
       (bkt t ((start + (u - 1)) % cap)).psl + 1⟩
    else bkt t pos)

/-- Length of the contiguous occupied run starting at `start`: the least
`u` such that slot `start + u` (mod `cap`) is empty (searched with fuel). -/
def runLen (cap : Nat) (t : List (Bucket K V)) (start : Nat) :
    Nat → Nat → Option Nat
  | _, 0 => none
  | u, fuel + 1 =>
    if (bkt t ((start + u) % cap)).payload.isSome then
      runLen cap t start (u + 1) fuel
    else some u

/-- The amended insertion algorithm: probe exactly as the spec says, then
resolve the collision by shifting the displaced run forward in one block. -/
def shiftSpec (hash : K → Nat) (s : SubTable K V) (element : K × V) :
    Option (SubTable K V) := do
  let sp ← probeStart s.capacity s.table (hash element.1 % s.capacity) 0 s.capacity
  let r ← runLen s.capacity s.table sp.1 0 s.capacity
  pure { s with
         table := (shiftTable s.capacity sp.1 r s.table).set sp.1 ⟨some element, sp.2⟩ }

/-! ### The `HashMap` directory

`HashMap` holds `SubtableSize = 1 << 3` subtables behind `shared_ptr`s and
routes every operation to subtable `hasher_(key) & (SubtableSize - 1)`.
Within one map the eight pointers always refer to eight distinct
subtables, so the per-map behaviour is modelled value-style below; the
pointer sharing introduced by copy construction/assignment is modelled
separately by the heap-level model further down. -/

/-- `const size_t SubtableSize = 1 << 3`. -/
def SubtableSize : Nat := 8

/-- Routing: `hasher_(key) & (SubtableSize - 1)`. -/
def route (hash : K → Nat) (key : K) : Nat :=
  hash key &&& (SubtableSize - 1)

/-- Value-level state of a `HashMap` (one map, no cross-map sharing). -/
structure HashMap (K V : Type) where
  size : Nat
  subtables : List (SubTable K V)
deriving DecidableEq

/-- A default-constructed `HashMap`: `size_ = 0` and eight fresh
subtables (`InitializeSubtables`). -/
def initHashMap {K V : Type} : HashMap K V :=
  ⟨0, List.replicate SubtableSize initSubTable⟩

/-- The subtable at directory index `i`. -/
def HashMap.sub (m : HashMap K V) (i : Nat) : SubTable K V :=
  m.subtables.getD i initSubTable

/-- `HashMap::insert`. -/
def HashMap.insert (hash : K → Nat) (m : HashMap K V) (element : K × V) :
    Option (HashMap K V) := do
  let h := route hash element.1
  let r ← (m.sub h).insert hash element
  pure { size := if r.1 then m.size + 1 else m.size,
         subtables := m.subtables.set h r.2 }

/-- `HashMap::erase`. -/
def HashMap.erase (hash : K → Nat) (m : HashMap K V) (key : K) :
    Option (HashMap K V) := do
  let h := route hash key
  let r ← (m.sub h).erase hash key
  pure { size := if r.1 then m.size - 1 else m.size,
         subtables := m.subtables.set h r.2 }

/-- `HashMap::find`: `some (some (h, i))` is an iterator onto slot `i` of
subtable `h`; `some none` is `end()`. -/
def HashMap.find (hash : K → Nat) (m : HashMap K V) (key : K) :
    Option (Option (Nat × Nat)) := do
  let h := route hash key
  let found ← (m.sub h).find hash key
  match found with
  | some i => pure (some (h, i))
  | none => pure none

/-- `HashMap::at`. -/
def HashMap.at' (hash : K → Nat) (m : HashMap K V) (key : K) :
    Option (Option V) :=
  (m.sub (route hash key)).at' hash key

/-- State effect of `HashMap::operator[]`. -/
def HashMap.index (hash : K → Nat) (m : HashMap K V) (key : K) (v0 : V) :
    Option (HashMap K V) := do
  let h := route hash key
  let r ← (m.sub h).insert hash (key, v0)
  pure { size := if r.1 then m.size + 1 else m.size,
         subtables := m.subtables.set h r.2 }

/-- `HashMap::clear`. -/
def HashMap.clear (m : HashMap K V) : HashMap K V :=
  ⟨0, m.subtables.map SubTable.clear⟩

/-! ### Reference-semantics model of the directory

The source stores each subtable behind a `std::shared_ptr` and the copy
constructor / copy assignment copy the *pointers*
(`subtables_[i] = other.subtables_[i]`), so two maps obtained by copying
share their subtables.  To express this observable aliasing we model the
heap explicitly: a `Heap` is the list of all allocated subtables and a
map holds eight addresses into it. -/

/-- All allocated subtables; an address is an index into this list. -/
abbrev Heap (K V : Type) : Type := List (SubTable K V)

/-- A `HashMap` as laid out in the source: an aggregate size and eight
`shared_ptr`s (addresses) to subtables. -/
structure HMapRef where
  size : Nat
  ptrs : List Nat
deriving DecidableEq

/-- Default construction: `InitializeSubtables` allocates eight fresh
subtables and stores their addresses. -/
def hmNew {K V : Type} (h : Heap K V) : Heap K V × HMapRef :=
  (h ++ List.replicate SubtableSize initSubTable,
   ⟨0, List.range' h.length SubtableSize⟩)

/-- Copy construction `HashMap(const HashMap&)`: copies `size_`, runs
`InitializeSubtables` (allocating eight fresh subtables), then overwrites
every `shared_ptr` with the source map's pointer — the new map shares all
eight subtables with the original. -/
def hmCopy {K V : Type} (h : Heap K V) (other : HMapRef) : Heap K V × HMapRef :=
  (h ++ List.replicate SubtableSize initSubTable,
   ⟨other.size, other.ptrs⟩)

/-- The subtable a map's directory entry `i` points to. -/
def hmSub (h : Heap K V) (m : HMapRef) (i : Nat) : SubTable K V :=
  h.getD (m.ptrs.getD i 0) initSubTable

/-- `HashMap::insert` on the heap model: mutates the pointed-to subtable
in place. -/
def hmInsert (hash : K → Nat) (h : Heap K V) (m : HMapRef)
    (element : K × V) : Option (Heap K V × HMapRef) := do
  let i := route hash element.1
  let a := m.ptrs.getD i 0
  let r ← (hmSub h m i).insert hash element
  pure (h.set a r.2, ⟨if r.1 then m.size + 1 else m.size, m.ptrs⟩)

/-- `HashMap::find` on the heap model. -/
def hmFind (hash : K → Nat) (h : Heap K V) (m : HMapRef) (key : K) :
    Option (Option (Nat × Nat)) := do
  let i := route hash key
  let found ← (hmSub h m i).find hash key
  match found with
  | some j => pure (some (i, j))
  | none => pure none

/-- `HashMap::size` on the heap model. -/
def hmSize (m : HMapRef) : Nat := m.size

/-- Sum of the sizes of the subtables a map points to. -/
def hmSumSizes (h : Heap K V) (m : HMapRef) : Nat :=
  (List.range SubtableSize).foldl (fun acc i => acc + (hmSub h m i).size) 0

/-- Inner (subtable) iterator position: the slot index, with
`capacity` playing the role of the `end()` vector iterator. -/
def subIterNext (s : SubTable K V) (i : Nat) : Nat → Nat
  | 0 => i
  | fuel + 1 =>
    if i < s.capacity then
      if (bkt s.table i).payload.isSome then i
      else subIterNext s (i + 1) fuel
    else s.capacity

/-- `SubTable::begin`: index of the first occupied slot, or `capacity`. -/
def subBegin (s : SubTable K V) : Nat :=
  subIterNext s 0 (s.capacity + 1)

/-- The `while (pos_ < SubtableSize && (*subtables_)[pos_]->empty()) ++pos_`
loops of `HashMap::begin` and of `iterator::operator++`. -/
def skipEmptySubs (h : Heap K V) (m : HMapRef) : Nat → Nat → Nat
  | p, 0 => p
  | p, fuel + 1 =>
    if p < SubtableSize ∧ (hmSub h m p).size = 0 then
      skipEmptySubs h m (p + 1) fuel
    else p

/-- `HashMap::iterator::operator++` on the heap model: step the inner
iterator (skipping deleted slots); on exhaustion advance to the next
non-empty subtable or to the terminal position `(SubtableSize, _)`. -/
def hmIterStep (h : Heap K V) (m : HMapRef) (it : Nat × Nat) : Nat × Nat :=
  let s := hmSub h m it.1
  let i' := subIterNext s (it.2 + 1) (s.capacity + 1)
  if i' < s.capacity then (it.1, i')
  else
    let p' := skipEmptySubs h m (it.1 + 1) SubtableSize
    if p' < SubtableSize then (p', subBegin (hmSub h m p'))
    else (SubtableSize, (hmSub h m (SubtableSize - 1)).capacity)

/-- `HashMap::begin` on the heap model. -/
def hmBegin (h : Heap K V) (m : HMapRef) : Nat × Nat :=
  let p := skipEmptySubs h m 0 SubtableSize
  if p < SubtableSize then (p, subBegin (hmSub h m p))
  else (SubtableSize, (hmSub h m (SubtableSize - 1)).capacity)

/-- Number of iterator steps from a given position until the terminal
directory position is reached — each step yields one pair. -/
def hmIterCount (h : Heap K V) (m : HMapRef) : Nat → Nat × Nat → Nat
  | 0, _ => 0
  | fuel + 1, it =>
    if it.1 < SubtableSize then hmIterCount h m fuel (hmIterStep h m it) + 1
    else 0

/-- Fuel ample enough to walk every slot of every pointed-to subtable. -/
def hmIterFuel (h : Heap K V) (m : HMapRef) : Nat :=
  (List.range SubtableSize).foldl (fun acc i => acc + (hmSub h m i).capacity) 0
    + SubtableSize + 1

/-- Pairs yielded by iterating the map from `begin` to `end`. -/
def hmPairs (h : Heap K V) (m : HMapRef) : Nat :=
  hmIterCount h m (hmIterFuel h m) (hmBegin h m)

/-! ## Toolkit: ring arithmetic -/

/-- The slot reached from `home` after `t` forward steps. -/
def cyc (cap home t : Nat) : Nat := (home + t) % cap

theorem cyc_lt {cap : Nat} (home t : Nat) (h : 0 < cap) : cyc cap home t < cap :=
  Nat.mod_lt _ h

theorem cyc_zero {cap home : Nat} (h : home < cap) : cyc cap home 0 = home := by
  simp [cyc, Nat.mod_eq_of_lt h]

theorem nextPos_mod {cap : Nat} (h : 0 < cap) (x : Nat) :
    NextPos cap (x % cap) = (x + 1) % cap := by
  have key : (x % cap + 1) % cap = (x + 1) % cap := (Nat.mod_modEq x cap).add_right 1
  have hm : x % cap < cap := Nat.mod_lt _ h
  unfold NextPos
  by_cases hc : x % cap + 1 = cap
  · rw [if_pos hc, ← key, hc, Nat.mod_self]
  · rw [if_neg hc, ← key]
    exact (Nat.mod_eq_of_lt (by omega)).symm

theorem prevPos_mod {cap : Nat} (h : 0 < cap) (x : Nat) :
    PrevPos cap ((x + 1) % cap) = x % cap := by
  have key : (x % cap + 1) % cap = (x + 1) % cap := (Nat.mod_modEq x cap).add_right 1
  have hm : x % cap < cap := Nat.mod_lt _ h
  unfold PrevPos
  by_cases hc : x % cap + 1 = cap
  · have h0 : (x + 1) % cap = 0 := by rw [← key, hc, Nat.mod_self]
    rw [h0, if_pos rfl]; omega
  · have h1 : (x + 1) % cap = x % cap + 1 := by
      rw [← key]; exact Nat.mod_eq_of_lt (by omega)
    rw [h1, if_neg (by omega)]; omega

theorem NextPos_cyc {cap : Nat} (home t : Nat) (h : 0 < cap) :
    NextPos cap (cyc cap home t) = cyc cap home (t + 1) := by
  unfold cyc
  rw [nextPos_mod h, ← Nat.add_assoc]

theorem PrevPos_cyc {cap : Nat} (home t : Nat) (h : 0 < cap) :
    PrevPos cap (cyc cap home (t + 1)) = cyc cap home t := by
  unfold cyc
  rw [← Nat.add_assoc, prevPos_mod h]

theorem cyc_inj {cap home t₁ t₂ : Nat} (h1 : t₁ < cap) (h2 : t₂ < cap)
    (h : cyc cap home t₁ = cyc cap home t₂) : t₁ = t₂ := by
  unfold cyc at h
  have hmod : t₁ % cap = t₂ % cap := Nat.ModEq.add_left_cancel' home h
  rwa [Nat.mod_eq_of_lt h1, Nat.mod_eq_of_lt h2] at hmod

theorem ringDist_lt {cap : Nat} (a b : Nat) (h : 0 < cap) : ringDist cap a b < cap :=
  Nat.mod_lt _ h

theorem ringDist_cyc {cap a u : Nat} (ha : a < cap) (hu : u < cap) :
    ringDist cap a (cyc cap a u) = u := by
  unfold ringDist cyc
  rw [Nat.mod_eq_of_lt ha]
  rw [show (a + u) % cap + cap - a = (a + u) % cap + (cap - a) from by omega]
  have h1 : ((a + u) % cap + (cap - a)) % cap = (a + u + (cap - a)) % cap :=
    (Nat.mod_modEq (a + u) cap).add_right (cap - a)
  rw [h1, show a + u + (cap - a) = u + cap from by omega, Nat.add_mod_right]
  exact Nat.mod_eq_of_lt hu

theorem cyc_ringDist {cap a b : Nat} (ha : a < cap) (hb : b < cap) :
    cyc cap a (ringDist cap a b) = b := by
  unfold ringDist cyc
  rw [Nat.mod_eq_of_lt ha]
  rw [show b + cap - a = b + (cap - a) from by omega]
  have h1 : (a + (b + (cap - a)) % cap) % cap = (a + (b + (cap - a))) % cap :=
    (Nat.mod_modEq (b + (cap - a)) cap).add_left a
  rw [h1, show a + (b + (cap - a)) = b + cap from by omega, Nat.add_mod_right]
  exact Nat.mod_eq_of_lt hb

theorem cyc_add {cap home t u : Nat} :
    cyc cap (cyc cap home t) u = cyc cap home (t + u) := by
  unfold cyc
  have h1 : (home + t) % cap + u ≡ home + t + u [MOD cap] :=
    (Nat.mod_modEq (home + t) cap).add_right u
  rw [h1, Nat.add_assoc]


/-! ## Toolkit: slot-array lemmas -/

theorem bkt_set_self {t : List (Bucket K V)} {i : Nat} (h : i < t.length)
    (b : Bucket K V) : bkt (t.set i b) i = b := by
  simp [bkt, List.getD, List.getElem?_set, h]

theorem bkt_set_ne {t : List (Bucket K V)} {i j : Nat} (h : i ≠ j)
    (b : Bucket K V) : bkt (t.set i b) j = bkt t j := by
  simp [bkt, List.getD, List.getElem?_set, h]

theorem bkt_replicate {n i : Nat} :
    bkt (List.replicate n (emptyBucket : Bucket K V)) i = emptyBucket := by
  rcases Nat.lt_or_ge i n with h | h
  · simp [bkt, List.getD, List.getElem?_replicate, h]
  · simp [bkt, List.getD, List.getElem?_eq_none, h]

theorem length_swapBuckets (t : List (Bucket K V)) (i j : Nat) :
    (swapBuckets t i j).length = t.length := by simp [swapBuckets]

theorem length_bumpPsl (t : List (Bucket K V)) (i : Nat) :
    (bumpPsl t i).length = t.length := by simp [bumpPsl]

theorem bkt_swap (t : List (Bucket K V)) {i j : Nat} (hi : i < t.length)
    (hj : j < t.length) (x : Nat) :
    bkt (swapBuckets t i j) x =
      if x = j then bkt t i else if x = i then bkt t j else bkt t x := by
  unfold swapBuckets
  by_cases hxj : x = j
  · subst hxj
    rw [if_pos rfl, bkt_set_self (by simpa using hj)]
  · rw [if_neg hxj, bkt_set_ne (fun h => hxj h.symm)]
    by_cases hxi : x = i
    · subst hxi
      rw [if_pos rfl, bkt_set_self hi]
    · rw [if_neg hxi, bkt_set_ne (fun h => hxi h.symm)]

theorem bkt_bump (t : List (Bucket K V)) {i : Nat} (hi : i < t.length) (x : Nat) :
    bkt (bumpPsl t i) x =
      if x = i then ⟨(bkt t i).payload, (bkt t i).psl + 1⟩ else bkt t x := by
  unfold bumpPsl
  by_cases hxi : x = i
  · subst hxi; rw [if_pos rfl, bkt_set_self hi]
  · rw [if_neg hxi, bkt_set_ne (fun h => hxi h.symm)]

/-- Whether slot `i` is occupied. -/
def occAt (t : List (Bucket K V)) (i : Nat) : Bool := (bkt t i).payload.isSome

/-- The number of occupied slots among the first `cap`. -/
def countOcc (cap : Nat) (t : List (Bucket K V)) : Nat :=
  ((List.range cap).filter (occAt t)).length

theorem length_filter_update {l : List Nat} (hl : l.Nodup) {i : Nat} (hi : i ∈ l)
    (p q : Nat → Bool) (hpq : ∀ j ∈ l, j ≠ i → p j = q j) :
    (l.filter p).length + (if q i then 1 else 0) =
      (l.filter q).length + (if p i then 1 else 0) := by
  induction l with
  | nil => cases hi
  | cons a l ih =>
    rw [List.nodup_cons] at hl
    rcases List.mem_cons.mp hi with rfl | hmem
    · have hfilter : l.filter p = l.filter q :=
        List.filter_congr (fun j hj =>
          hpq j (List.mem_cons_of_mem _ hj) (fun h => hl.1 (h ▸ hj)))
      simp only [List.filter_cons, hfilter]
      by_cases hp : p i
      · by_cases hq : q i
        · simp [hp, hq]
        · simp [hp, hq]
      · by_cases hq : q i
        · simp [hp, hq]
        · simp [hp, hq]
    · have hne : a ≠ i := fun h => hl.1 (h ▸ hmem)
      have hpa : p a = q a := hpq a (List.mem_cons_self a l) hne
      have hrec := ih hl.2 hmem (fun j hj hji => hpq j (List.mem_cons_of_mem _ hj) hji)
      simp only [List.filter_cons, hpa]
      by_cases hq : q a
      · simp only [hq, if_true, List.length_cons]
        omega
      · simp only [hq, Bool.false_eq_true, if_false]
        omega

theorem countOcc_set {cap : Nat} {t : List (Bucket K V)} {i : Nat} (hi : i < cap)
    (hlen : t.length = cap) (b : Bucket K V) :
    countOcc cap (t.set i b) + (if occAt t i then 1 else 0) =
      countOcc cap t + (if b.payload.isSome then 1 else 0) := by
  have hib : occAt (t.set i b) i = b.payload.isSome := by
    simp [occAt, bkt_set_self (hlen ▸ hi)]
  have key := length_filter_update (List.nodup_range _) (List.mem_range.mpr hi)
    (occAt (t.set i b)) (occAt t)
    (fun j _ hji => by simp [occAt, bkt_set_ne (fun h => hji h.symm)])
  unfold countOcc
  rw [key, hib]

theorem countOcc_congr {cap : Nat} {t t' : List (Bucket K V)}
    (h : ∀ i, i < cap → bkt t i = bkt t' i) : countOcc cap t = countOcc cap t' := by
  unfold countOcc
  congr 1
  exact List.filter_congr (fun j hj => by simp [occAt, h j (List.mem_range.mp hj)])

/-- The pair `(k, v)` is stored in some slot below `cap`. -/
def HasPair (cap : Nat) (t : List (Bucket K V)) (k : K) (v : V) : Prop :=
  ∃ i, i < cap ∧ (bkt t i).payload = some (k, v)

/-- The key `k` is stored in some slot below `cap`. -/
def HasKey (cap : Nat) (t : List (Bucket K V)) (k : K) : Prop :=
  ∃ i, i < cap ∧ ((bkt t i).payload.map Prod.fst) = some k

theorem hasKey_iff_pair {cap : Nat} {t : List (Bucket K V)} {k : K} :
    HasKey cap t k ↔ ∃ v, HasPair cap t k v := by
  constructor
  · rintro ⟨i, hi, hk⟩
    rcases hp : (bkt t i).payload with _ | ⟨k', v⟩
    · rw [hp] at hk; cases hk
    · rw [hp] at hk
      have hk' : k' = k := by
        simpa using hk
      subst hk'
      exact ⟨v, i, hi, hp⟩
  · rintro ⟨v, i, hi, hp⟩
    exact ⟨i, hi, by rw [hp]; rfl⟩

/-! ## Invariants -/

/-- PSL correctness for slot `i` (spec §3): an occupied slot sits exactly
`psl` forward steps from its key's home slot and `psl < capacity`. -/
def slotPslOk (hash : K → Nat) (cap : Nat) (t : List (Bucket K V)) (i : Nat) : Prop :=
  ∀ kv ∈ (bkt t i).payload,
    i = cyc cap (hash kv.1 % cap) (bkt t i).psl ∧ (bkt t i).psl < cap

/-- Strong predecessor condition: an occupied slot with positive PSL has
an occupied predecessor whose PSL is at least its own minus one. -/
def slotRunOk (cap : Nat) (t : List (Bucket K V)) (i : Nat) : Prop :=
  ∀ _kv ∈ (bkt t i).payload, 0 < (bkt t i).psl →
    (bkt t (PrevPos cap i)).payload.isSome = true ∧
    (bkt t i).psl ≤ (bkt t (PrevPos cap i)).psl + 1

/-- The predecessor condition exactly as claim C2 words it: the slot at
`i - 1` (mod capacity) is either empty or has PSL ≥ p - 1. -/
def slotWeakOk (cap : Nat) (t : List (Bucket K V)) (i : Nat) : Prop :=
  ∀ _kv ∈ (bkt t i).payload,
    (bkt t (PrevPos cap i)).payload = none ∨
    (bkt t i).psl ≤ (bkt t (PrevPos cap i)).psl + 1

/-- No two occupied slots carry equal keys. -/
def slotsUniq (cap : Nat) (t : List (Bucket K V)) : Prop :=
  ∀ i < cap, ∀ j < cap, ∀ kvi ∈ (bkt t i).payload, ∀ kvj ∈ (bkt t j).payload,
    kvi.1 = kvj.1 → i = j

/-- Table-level strong invariant of a Robin-Hood slot array. -/
def TblOk (hash : K → Nat) (cap : Nat) (t : List (Bucket K V)) : Prop :=
  t.length = cap ∧
  (∀ i < cap, slotPslOk hash cap t i ∧ slotRunOk cap t i) ∧
  slotsUniq cap t

/-- The Robin-Hood invariant exactly as claim C2 states it: every
occupied slot's PSL equals its distance from home, and its predecessor is
empty or has PSL ≥ p - 1. -/
def WeakRH (hash : K → Nat) (s : SubTable K V) : Prop :=
  ∀ i < s.capacity,
    slotPslOk hash s.capacity s.table i ∧ slotWeakOk s.capacity s.table i

/-- Full internal invariant of a subtable. -/
def Inv (hash : K → Nat) (s : SubTable K V) : Prop :=
  TblOk hash s.capacity s.table ∧
  s.size = countOcc s.capacity s.table ∧
  2 * s.size ≤ s.capacity ∧
  ∃ m, s.capacity = 8 * 2 ^ m

theorem Inv.cap_pos {hash : K → Nat} {s : SubTable K V} (h : Inv hash s) :
    0 < s.capacity := by
  obtain ⟨m, hm⟩ := h.2.2.2
  have : 0 < 8 * 2 ^ m := by positivity
  omega

theorem Inv.weakRH {hash : K → Nat} {s : SubTable K V} (h : Inv hash s) :
    WeakRH hash s := by
  intro i hi
  refine ⟨(h.1.2.1 i hi).1, ?_⟩
  intro kv hkv
  by_cases hpos : 0 < (bkt s.table i).psl
  · exact Or.inr ((h.1.2.1 i hi).2 kv hkv hpos).2
  · exact Or.inr (by omega)

theorem Inv.countOcc_lt {hash : K → Nat} {s : SubTable K V} (h : Inv hash s) :
    countOcc s.capacity s.table < s.capacity := by
  obtain ⟨m, hm⟩ := h.2.2.2
  have h1 := h.2.1
  have h2 := h.2.2.1
  have h3 : 0 < 2 ^ m := pow_pos (by omega : (0:Nat) < 2) m
  omega

/-- Chain lemma: walking backwards from an occupied slot, every slot on
the way to the key's home slot is occupied with PSL at least its distance
from that home. -/
theorem chain_occupied {cap : Nat} {t : List (Bucket K V)}
    (hrun : ∀ i < cap, slotRunOk cap t i) (hcap : 0 < cap)
    {i : Nat} (hi : i < cap) {kv : K × V} (hkv : (bkt t i).payload = some kv)
    {home d : Nat} (hd : (bkt t i).psl = d) (hcycd : i = cyc cap home d) :
    ∀ v ≤ d, (bkt t (cyc cap home (d - v))).payload.isSome = true ∧
      d - v ≤ (bkt t (cyc cap home (d - v))).psl := by
  intro v
  induction v with
  | zero =>
    intro _
    have : cyc cap home (d - 0) = i := by rw [Nat.sub_zero, ← hcycd]
    rw [this, hkv]
    simp [hd]
  | succ w ih =>
    intro hw
    have hwd := ih (Nat.le_of_succ_le hw)
    have hpos : 0 < d - w := by omega
    obtain ⟨kv', hkv'⟩ := Option.isSome_iff_exists.mp hwd.1
    have hcurlt : cyc cap home (d - w) < cap := cyc_lt home (d - w) hcap
    have hrunu := hrun (cyc cap home (d - w)) hcurlt kv' hkv' (by omega)
    have hprev : PrevPos cap (cyc cap home (d - w)) = cyc cap home (d - w - 1) := by
      conv_lhs => rw [show d - w = (d - w - 1) + 1 from by omega]
      rw [PrevPos_cyc home (d - w - 1) hcap]
    rw [hprev] at hrunu
    rw [show d - (w + 1) = d - w - 1 from by omega]
    exact ⟨hrunu.1, by omega⟩

/-- Every stored PSL is strictly below the number of occupied slots. -/
theorem psl_lt_countOcc {hash : K → Nat} {cap : Nat} {t : List (Bucket K V)}
    (hT : TblOk hash cap t) (hcap : 0 < cap)
    {i : Nat} (hi : i < cap) {kv : K × V} (hkv : (bkt t i).payload = some kv) :
    (bkt t i).psl < countOcc cap t := by
  set d := (bkt t i).psl with hd
  set home := hash kv.1 % cap with hhome
  have hpsl := (hT.2.1 i hi).1 kv hkv
  have hchain := chain_occupied (fun j hj => (hT.2.1 j hj).2)
    hcap hi hkv hd.symm hpsl.1
  have hLsub : ((List.range (d + 1)).map (cyc cap home)) ⊆
      (List.range cap).filter (occAt t) := by
    intro x hx
    obtain ⟨u, hu, hux⟩ := List.mem_map.mp hx
    have hu' : u < d + 1 := List.mem_range.mp hu
    have := hchain (d - u) (by omega)
    rw [show d - (d - u) = u from by omega] at this
    rw [← hux] at *
    exact List.mem_filter.mpr ⟨List.mem_range.mpr (cyc_lt home u hcap),
      by rw [← hux]; exact this.1⟩
  have hnodup : ((List.range (d + 1)).map (cyc cap home)).Nodup := by
    refine (List.nodup_range (d + 1)).map_on ?_
    intro a ha b hb hab
    exact cyc_inj (by have := List.mem_range.mp ha; omega)
      (by have := List.mem_range.mp hb; omega) hab
  have hlen := (List.subperm_of_subset hnodup hLsub).length_le
  rw [List.length_map, List.length_range] at hlen
  unfold countOcc
  omega

/-- A table with fewer occupied slots than capacity has, from any start
slot, a first empty slot at some offset `r < capacity`. -/
theorem exists_firstEmpty {cap : Nat} {t : List (Bucket K V)}
    (hcount : countOcc cap t < cap) (hcap : 0 < cap) {start : Nat}
    (hstart : start < cap) :
    ∃ r, r < cap ∧ (bkt t (cyc cap start r)).payload = none ∧
      ∀ u < r, (bkt t (cyc cap start u)).payload.isSome = true := by
  have hex : ∃ e, e < cap ∧ (bkt t e).payload = none := by
    by_contra hno
    push_neg at hno
    have hall : ∀ x ∈ List.range cap, occAt t x = true := by
      intro x hx
      have := hno x (List.mem_range.mp hx)
      simp [occAt, Option.isSome_iff_ne_none, this]
    have : (List.range cap).filter (occAt t) = List.range cap :=
      List.filter_eq_self.mpr (by simpa using hall)
    unfold countOcc at hcount
    rw [this, List.length_range] at hcount
    omega
  obtain ⟨e, he, hemp⟩ := hex
  have hP : ∃ r, (bkt t (cyc cap start r)).payload = none :=
    ⟨ringDist cap start e, by rw [cyc_ringDist hstart he]; exact hemp⟩
  refine ⟨Nat.find hP, ?_, Nat.find_spec hP, ?_⟩
  · have h1 : Nat.find hP ≤ ringDist cap start e :=
      Nat.find_min' hP (by rw [cyc_ringDist hstart he]; exact hemp)
    have h2 : ringDist cap start e < cap := ringDist_lt start e hcap
    omega
  · intro u hu
    have := Nat.find_min hP hu
    exact Option.isSome_iff_ne_none.mpr this


/-! ## Probe-walk lemmas -/

theorem probeStart_go {cap : Nat} {t : List (Bucket K V)} {home e0 : Nat}
    (hcap : 0 < cap)
    (hempty : (bkt t (cyc cap home e0)).payload = none) :
    ∀ fuel u, u ≤ e0 → e0 - u < fuel →
    ∃ p, u ≤ p ∧ p ≤ e0 ∧
      probeStart cap t (cyc cap home u) u fuel = some (cyc cap home p, p) ∧
      (∀ w, u ≤ w → w < p →
        (bkt t (cyc cap home w)).payload.isSome = true ∧
        w ≤ (bkt t (cyc cap home w)).psl) ∧
      ¬(p ≤ (bkt t (cyc cap home p)).psl ∧
        (bkt t (cyc cap home p)).payload.isSome = true) := by
  intro fuel
  induction fuel with
  | zero => intro u _ h; omega
  | succ f ih =>
    intro u hu hfu
    by_cases hc : u ≤ (bkt t (cyc cap home u)).psl ∧
        (bkt t (cyc cap home u)).payload.isSome = true
    · have hne : u ≠ e0 := by
        intro h
        rw [h, hempty] at hc
        simp at hc
      have hult : u < e0 := by omega
      obtain ⟨p, hp1, hp2, hp3, hp4, hp5⟩ := ih (u + 1) (by omega) (by omega)
      refine ⟨p, by omega, hp2, ?_, ?_, hp5⟩
      · rw [probeStart, if_pos hc, NextPos_cyc home u hcap]
        exact hp3
      · intro w hw1 hw2
        rcases Nat.eq_or_lt_of_le hw1 with rfl | hlt
        · exact ⟨hc.2, hc.1⟩
        · exact hp4 w hlt hw2
    · refine ⟨u, le_refl u, hu, ?_, by omega, hc⟩
      rw [probeStart, if_neg hc]

theorem findFrom_sound {cap : Nat} {t : List (Bucket K V)} {key : K}
    (hcap : 0 < cap) :
    ∀ fuel pos psl i, pos < cap →
      findFrom cap t key pos psl fuel = some (some i) →
      i < cap ∧ ∃ v, (bkt t i).payload = some (key, v) := by
  intro fuel
  induction fuel with
  | zero => intro pos psl i _ h; cases h
  | succ f ih =>
    intro pos psl i hpos h
    rw [findFrom] at h
    rcases hp : (bkt t pos).payload with _ | kv
    · rw [hp] at h; cases h
    · rw [hp] at h
      dsimp only at h
      by_cases h1 : (bkt t pos).psl < psl
      · rw [if_pos h1] at h; cases h
      · rw [if_neg h1] at h
        by_cases h2 : kv.1 = key
        · rw [if_pos h2] at h
          have : pos = i := by
            have := Option.some.inj h
            exact Option.some.inj this
          subst this
          exact ⟨hpos, kv.2, by rw [hp, ← h2]⟩
        · rw [if_neg h2] at h
          have hnext : NextPos cap pos < cap := by
            unfold NextPos
            by_cases hc : pos + 1 = cap
            · rw [if_pos hc]; omega
            · rw [if_neg hc]; omega
          exact ih (NextPos cap pos) (psl + 1) i hnext h

theorem findFrom_complete_go {cap : Nat} {t : List (Bucket K V)} {key : K}
    {home d : Nat} (hcap : 0 < cap) (hd : d < cap)
    (htarget : ∃ v, (bkt t (cyc cap home d)).payload = some (key, v))
    (hchain : ∀ u ≤ d, (bkt t (cyc cap home u)).payload.isSome = true ∧
      u ≤ (bkt t (cyc cap home u)).psl)
    (honce : ∀ u ≤ d, ∀ kv ∈ (bkt t (cyc cap home u)).payload,
      kv.1 = key → u = d) :
    ∀ fuel u, u ≤ d → d - u < fuel →
      findFrom cap t key (cyc cap home u) u fuel = some (some (cyc cap home d)) := by
  intro fuel
  induction fuel with
  | zero => intro u _ h; omega
  | succ f ih =>
    intro u hu hfu
    have hocc := hchain u hu
    obtain ⟨kv, hkv⟩ := Option.isSome_iff_exists.mp hocc.1
    rw [findFrom, hkv]
    dsimp only
    rw [if_neg (show ¬ (bkt t (cyc cap home u)).psl < u from by omega)]
    by_cases h2 : kv.1 = key
    · rw [if_pos h2]
      have := honce u hu kv (by rw [hkv]; rfl) h2
      subst this
      rfl
    · rw [if_neg h2]
      have hune : u ≠ d := by
        intro h
        subst h
        obtain ⟨v, hv⟩ := htarget
        rw [hv] at hkv
        cases hkv
        exact h2 rfl
      rw [NextPos_cyc home u hcap]
      exact ih (u + 1) (by omega) (by omega)

theorem findFrom_term_go {cap : Nat} {t : List (Bucket K V)} (key : K)
    {home e0 : Nat} (hcap : 0 < cap)
    (hempty : (bkt t (cyc cap home e0)).payload = none) :
    ∀ fuel u, u ≤ e0 → e0 - u < fuel →
      (findFrom cap t key (cyc cap home u) u fuel).isSome = true := by
  intro fuel
  induction fuel with
  | zero => intro u _ h; omega
  | succ f ih =>
    intro u hu hfu
    rw [findFrom]
    rcases hp : (bkt t (cyc cap home u)).payload with _ | kv
    · rfl
    · dsimp only
      have hne : u ≠ e0 := by
        intro h; rw [h, hempty] at hp; cases hp
      by_cases h1 : (bkt t (cyc cap home u)).psl < u
      · rw [if_pos h1]; rfl
      · rw [if_neg h1]
        by_cases h2 : kv.1 = key
        · rw [if_pos h2]; rfl
        · rw [if_neg h2]
          rw [NextPos_cyc home u hcap]
          exact ih (u + 1) (by omega) (by omega)

/-- `find` is sound: a returned iterator designates a slot that holds the
key. -/
theorem find_sound {hash : K → Nat} {s : SubTable K V} {key : K} {i : Nat}
    (hcap : 0 < s.capacity)
    (h : s.find hash key = some (some i)) :
    i < s.capacity ∧ ∃ v, (bkt s.table i).payload = some (key, v) :=
  findFrom_sound hcap s.capacity (hash key % s.capacity) 0 i
    (Nat.mod_lt _ hcap) h

/-- `find` is complete: a stored pair is found. -/
theorem find_complete {hash : K → Nat} {s : SubTable K V} {key : K} {v : V}
    (hT : TblOk hash s.capacity s.table) (hcap : 0 < s.capacity)
    (hpair : HasPair s.capacity s.table key v) :
    ∃ i, s.find hash key = some (some i) ∧
      (bkt s.table i).payload = some (key, v) := by
  obtain ⟨i, hi, hp⟩ := hpair
  have hpsl := (hT.2.1 i hi).1 (key, v) (by rw [hp]; rfl)
  set d := (bkt s.table i).psl with hdd
  set home := hash key % s.capacity with hhome
  have hcyc : i = cyc s.capacity home d := hpsl.1
  have htarget : ∃ w, (bkt s.table (cyc s.capacity home d)).payload = some (key, w) :=
    ⟨v, by rw [← hcyc]; exact hp⟩
  have hchain0 := chain_occupied (fun j hj => (hT.2.1 j hj).2)
    hcap hi hp hdd.symm hcyc
  have hchain : ∀ u ≤ d, (bkt s.table (cyc s.capacity home u)).payload.isSome = true ∧
      u ≤ (bkt s.table (cyc s.capacity home u)).psl := by
    intro u hu
    have := hchain0 (d - u) (by omega)
    rw [show d - (d - u) = u from by omega] at this
    exact this
  have honce : ∀ u ≤ d, ∀ kv ∈ (bkt s.table (cyc s.capacity home u)).payload,
      kv.1 = key → u = d := by
    intro u hu kv hkv hk
    have huc : cyc s.capacity home u < s.capacity := cyc_lt home u hcap
    have heq : cyc s.capacity home u = i := by
      apply hT.2.2 (cyc s.capacity home u) huc i hi kv hkv (key, v) (by rw [hp]; rfl)
      rw [hk]
    rw [hcyc] at heq
    exact cyc_inj (by omega) (by omega : d < s.capacity) heq
  refine ⟨cyc s.capacity home d, ?_, by rw [← hcyc]; exact hp⟩
  have := findFrom_complete_go hcap
    (by omega : d < s.capacity) htarget hchain honce s.capacity 0 (by omega)
    (by omega)
  unfold SubTable.find
  rw [show hash key % s.capacity = cyc s.capacity home 0 from (cyc_zero (Nat.mod_lt _ hcap)).symm] at *
  exact this

/-- `find` terminates within `capacity` probes on any table that has an
empty slot. -/
theorem find_term {hash : K → Nat} {s : SubTable K V} {key : K}
    (hcount : countOcc s.capacity s.table < s.capacity) (hcap : 0 < s.capacity) :
    (s.find hash key).isSome = true := by
  set home := hash key % s.capacity with hhome
  have hhlt : home < s.capacity := Nat.mod_lt _ hcap
  obtain ⟨e0, he0, hemp, _⟩ := exists_firstEmpty hcount hcap hhlt
  have := findFrom_term_go key hcap hemp s.capacity 0 (by omega) (by omega)
  unfold SubTable.find
  rw [show hash key % s.capacity = cyc s.capacity home 0 from (cyc_zero hhlt).symm] at *
  exact this

/-- On a valid table `find` misses exactly when the key is absent. -/
theorem find_none_iff {hash : K → Nat} {s : SubTable K V} {key : K}
    (hT : TblOk hash s.capacity s.table)
    (hcount : countOcc s.capacity s.table < s.capacity) (hcap : 0 < s.capacity) :
    s.find hash key = some none ↔ ¬ HasKey s.capacity s.table key := by
  constructor
  · intro h hk
    obtain ⟨v, hpair⟩ := hasKey_iff_pair.mp hk
    obtain ⟨i, hfind, _⟩ := find_complete hT hcap hpair
    rw [h] at hfind
    cases hfind
  · intro hk
    have hterm : (SubTable.find hash s key).isSome = true := find_term hcount hcap
    obtain ⟨r, hr⟩ := Option.isSome_iff_exists.mp hterm
    rcases r with _ | i
    · exact hr
    · exfalso
      obtain ⟨hi, v, hv⟩ := find_sound hcap hr
      exact hk ⟨i, hi, by rw [hv]; rfl⟩


/-! ## The shift performed by `InsertElement`'s second loop -/

theorem length_shiftTable (cap start r : Nat) (t : List (Bucket K V)) :
    (shiftTable cap start r t).length = cap := by
  simp [shiftTable]

theorem bkt_shiftTable {cap : Nat} (start r : Nat) (t : List (Bucket K V))
    {p : Nat} (hp : p < cap) :
    bkt (shiftTable cap start r t) p =
      (if ringDist cap start p = 0 then bkt t ((start + r) % cap)
       else if ringDist cap start p ≤ r then
         ⟨(bkt t ((start + (ringDist cap start p - 1)) % cap)).payload,
          (bkt t ((start + (ringDist cap start p - 1)) % cap)).psl + 1⟩
       else bkt t p) := by
  unfold shiftTable bkt
  simp [List.getD, List.getElem?_map, List.getElem?_range, hp]

theorem bkt_shiftTable_cyc {cap : Nat} {start : Nat} (r : Nat)
    (t : List (Bucket K V)) {u : Nat} (hstart : start < cap) (hu : u < cap) :
    bkt (shiftTable cap start r t) (cyc cap start u) =
      (if u = 0 then bkt t (cyc cap start r)
       else if u ≤ r then
         ⟨(bkt t (cyc cap start (u - 1))).payload,
          (bkt t (cyc cap start (u - 1))).psl + 1⟩
       else bkt t (cyc cap start u)) := by
  have hcap : 0 < cap := by omega
  rw [bkt_shiftTable start r t (cyc_lt start u hcap)]
  rw [ringDist_cyc hstart hu]
  rfl

theorem shiftTable_zero {cap : Nat} {start : Nat} {t : List (Bucket K V)}
    (hstart : start < cap) (hlen : t.length = cap) :
    shiftTable cap start 0 t = t := by
  have hcap : 0 < cap := by omega
  apply List.ext_getElem
  · rw [length_shiftTable, hlen]
  · intro p h1 h2
    have hp : p < cap := by rw [length_shiftTable] at h1; exact h1
    have hb : bkt (shiftTable cap start 0 t) p = bkt t p := by
      rw [bkt_shiftTable start 0 t hp]
      by_cases h0 : ringDist cap start p = 0
      · rw [if_pos h0]
        have : cyc cap start 0 = p := by
          have := cyc_ringDist hstart hp
          rw [h0] at this
          exact this
        unfold cyc at this
        rw [this]
      · rw [if_neg h0, if_neg (by omega)]
    unfold bkt at hb
    rw [List.getD_eq_getElem?_getD, List.getD_eq_getElem?_getD] at hb
    rw [List.getElem?_eq_getElem h1, List.getElem?_eq_getElem h2] at hb
    simpa using hb

/-- Two slot arrays of the same capacity with equal reads are equal. -/
theorem table_ext {cap : Nat} {t1 t2 : List (Bucket K V)}
    (h1 : t1.length = cap) (h2 : t2.length = cap)
    (hp : ∀ p, p < cap → bkt t1 p = bkt t2 p) : t1 = t2 := by
  apply List.ext_getElem
  · rw [h1, h2]
  · intro p hp1 hp2
    have hb := hp p (by omega)
    unfold bkt at hb
    rw [List.getD_eq_getElem?_getD, List.getD_eq_getElem?_getD] at hb
    rw [List.getElem?_eq_getElem hp1, List.getElem?_eq_getElem hp2] at hb
    simpa using hb

/-- One iteration of the shift loop turns the `k`-shifted table into the
`k+1`-shifted table. -/
theorem shiftTable_step {cap start : Nat} {t : List (Bucket K V)} {k : Nat}
    (hstart : start < cap) (hlen : t.length = cap) (hk1 : k + 1 < cap) :
    bumpPsl (swapBuckets (shiftTable cap start k t) (cyc cap start (k + 1)) start)
        (cyc cap start (k + 1)) = shiftTable cap start (k + 1) t := by
  have hcap : 0 < cap := by omega
  have hTlen : (shiftTable cap start k t).length = cap := length_shiftTable cap start k t
  have hc1lt : cyc cap start (k + 1) < cap := cyc_lt start (k + 1) hcap
  have hSlen : (swapBuckets (shiftTable cap start k t) (cyc cap start (k + 1)) start).length = cap := by
    rw [length_swapBuckets, hTlen]
  have hBlen : (bumpPsl (swapBuckets (shiftTable cap start k t) (cyc cap start (k + 1)) start) (cyc cap start (k + 1))).length = cap := by
    rw [length_bumpPsl, hSlen]
  have hne0 : cyc cap start (k + 1) ≠ start := by
    intro h
    have h0 : cyc cap start 0 = start := cyc_zero hstart
    have := cyc_inj hk1 hcap (h.trans h0.symm)
    omega
  have hrd0 : ringDist cap start start = 0 := by
    have h0 := ringDist_cyc hstart hcap
    rwa [cyc_zero hstart] at h0
  have hTstart : bkt (shiftTable cap start k t) start = bkt t (cyc cap start k) := by
    have h1 := bkt_shiftTable_cyc (r := k) (u := 0) t hstart hcap
    rw [cyc_zero hstart] at h1
    rw [h1]
    simp
  have hTc1 : bkt (shiftTable cap start k t) (cyc cap start (k + 1)) =
      bkt t (cyc cap start (k + 1)) := by
    rw [bkt_shiftTable_cyc (r := k) (u := k + 1) t hstart hk1]
    rw [if_neg (by omega), if_neg (by omega)]
  apply table_ext hBlen (length_shiftTable cap start (k + 1) t)
  intro p hp
  have hud : ringDist cap start p < cap := ringDist_lt start p hcap
  have hpu : cyc cap start (ringDist cap start p) = p := cyc_ringDist hstart hp
  by_cases hu0 : ringDist cap start p = 0
  · have hps : p = start := by rw [← hpu, hu0, cyc_zero hstart]
    have h0 : bkt (shiftTable cap start (k + 1) t) start = bkt t (cyc cap start (k + 1)) := by
      have h1 := bkt_shiftTable_cyc (r := k + 1) (u := 0) t hstart hcap
      rw [cyc_zero hstart] at h1
      rw [h1]
      simp
    rw [hps, h0]
    rw [bkt_bump _ (by rw [hSlen]; exact hc1lt)]
    rw [if_neg (fun h => hne0 h.symm)]
    rw [bkt_swap _ (by rw [hTlen]; exact hc1lt) (by rw [hTlen]; exact hstart)]
    rw [if_pos rfl]
    exact hTc1
  · by_cases huk : ringDist cap start p = k + 1
    · have hps : p = cyc cap start (k + 1) := by rw [← hpu, huk]
      rw [bkt_bump _ (by rw [hSlen]; exact hc1lt)]
      rw [if_pos hps]
      rw [bkt_swap _ (by rw [hTlen]; exact hc1lt) (by rw [hTlen]; exact hstart)]
      rw [if_neg hne0, if_pos rfl, hTstart]
      rw [hps]
      rw [bkt_shiftTable_cyc (r := k + 1) (u := k + 1) t hstart hk1]
      rw [if_neg (by omega), if_pos (le_refl (k + 1))]
      simp
    · have hpns : p ≠ start := fun h => hu0 (by rw [h]; exact hrd0)
      have hpnc : p ≠ cyc cap start (k + 1) := by
        intro h
        apply huk
        rw [h]
        exact ringDist_cyc hstart hk1
      rw [bkt_bump _ (by rw [hSlen]; exact hc1lt)]
      rw [if_neg hpnc]
      rw [bkt_swap _ (by rw [hTlen]; exact hc1lt) (by rw [hTlen]; exact hstart)]
      rw [if_neg hpns, if_neg hpnc]
      conv_lhs => rw [← hpu]
      conv_rhs => rw [← hpu]
      rw [bkt_shiftTable_cyc (r := k) (u := ringDist cap start p) t hstart hud]
      rw [bkt_shiftTable_cyc (r := k + 1) (u := ringDist cap start p) t hstart hud]
      rw [if_neg hu0, if_neg hu0]
      by_cases hle : ringDist cap start p ≤ k
      · rw [if_pos hle, if_pos (by omega)]
      · rw [if_neg hle, if_neg (by omega)]

theorem bkt_shiftTable_start {cap start : Nat} (k : Nat) (t : List (Bucket K V))
    (hstart : start < cap) :
    bkt (shiftTable cap start k t) start = bkt t (cyc cap start k) := by
  have hcap : 0 < cap := by omega
  have h1 := bkt_shiftTable_cyc (r := k) (u := 0) t hstart hcap
  rw [cyc_zero hstart] at h1
  rw [h1]
  simp

/-- Running the shift loop from the `k`-shifted table yields the fully
shifted table, where `r` is the length of the occupied run at `start`. -/
theorem shiftLoop_go {cap start r : Nat} {t : List (Bucket K V)}
    (hstart : start < cap) (hlen : t.length = cap) (hr : r < cap)
    (hrun : ∀ u, u < r → (bkt t (cyc cap start u)).payload.isSome = true)
    (hempty : (bkt t (cyc cap start r)).payload = none) :
    ∀ fuel k, k ≤ r → r - k < fuel →
      shiftLoop cap start (shiftTable cap start k t) (cyc cap start k) fuel =
        some (shiftTable cap start r t) := by
  have hcap : 0 < cap := by omega
  intro fuel
  induction fuel with
  | zero => intro k _ h; omega
  | succ f ih =>
    intro k hk hfk
    rw [shiftLoop]
    by_cases hocc : (bkt (shiftTable cap start k t) start).payload.isSome = true
    · have hklt : k < r := by
        rcases Nat.eq_or_lt_of_le hk with rfl | h
        · rw [bkt_shiftTable_start k t hstart, hempty] at hocc
          simp at hocc
        · exact h
      rw [if_pos hocc]
      rw [NextPos_cyc start k hcap]
      dsimp only
      rw [shiftTable_step hstart hlen (by omega)]
      exact ih (k + 1) (by omega) (by omega)
    · have hkr : k = r := by
        rcases Nat.eq_or_lt_of_le hk with rfl | h
        · rfl
        · exact absurd (by rw [bkt_shiftTable_start k t hstart]; exact hrun k h) hocc
      subst hkr
      rw [if_neg hocc]

/-- `runLen` finds the length of the occupied run. -/
theorem runLen_go {cap : Nat} {t : List (Bucket K V)} {start r : Nat}
    (hrun : ∀ u, u < r → (bkt t (cyc cap start u)).payload.isSome = true)
    (hempty : (bkt t (cyc cap start r)).payload = none) :
    ∀ fuel u, u ≤ r → r - u < fuel → runLen cap t start u fuel = some r := by
  intro fuel
  induction fuel with
  | zero => intro u _ h; omega
  | succ f ih =>
    intro u hu hfu
    rw [runLen]
    by_cases hur : u = r
    · subst hur
      rw [if_neg (by rw [show (start + u) % cap = cyc cap start u from rfl, hempty]; simp)]
    · rw [if_pos (by rw [show (start + u) % cap = cyc cap start u from rfl]; exact hrun u (by omega))]
      exact ih (u + 1) (by omega) (by omega)

/-- Full description of a run of `InsertElement`: the probe walk stops at
offset `p` from the home slot, and the occupied run of length `e0 - p`
starting there is shifted forward one slot before the payload is written
with PSL `p`. -/
theorem InsertElement_run {hash : K → Nat} {s : SubTable K V} (e : K × V)
    (hT : TblOk hash s.capacity s.table)
    (hcount : countOcc s.capacity s.table < s.capacity)
    (hcap : 0 < s.capacity) :
    ∃ p e0, p ≤ e0 ∧ e0 < s.capacity ∧
      (∀ w, w < p →
        (bkt s.table (cyc s.capacity (hash e.1 % s.capacity) w)).payload.isSome = true ∧
        w ≤ (bkt s.table (cyc s.capacity (hash e.1 % s.capacity) w)).psl) ∧
      ¬(p ≤ (bkt s.table (cyc s.capacity (hash e.1 % s.capacity) p)).psl ∧
        (bkt s.table (cyc s.capacity (hash e.1 % s.capacity) p)).payload.isSome = true) ∧
      (∀ u, u < e0 →
        (bkt s.table (cyc s.capacity (hash e.1 % s.capacity) u)).payload.isSome = true) ∧
      (bkt s.table (cyc s.capacity (hash e.1 % s.capacity) e0)).payload = none ∧
      s.InsertElement hash e = some { s with table := (shiftTable s.capacity (cyc s.capacity (hash e.1 % s.capacity) p) (e0 - p) s.table).set (cyc s.capacity (hash e.1 % s.capacity) p) ⟨some e, p⟩ } := by
  have hhome : hash e.1 % s.capacity < s.capacity := Nat.mod_lt _ hcap
  obtain ⟨e0, he0lt, hemp, hoccs⟩ := exists_firstEmpty hcount hcap hhome
  obtain ⟨p, _, hpe0, hprobe, hwalk, hstop⟩ :=
    probeStart_go (t := s.table) hcap hemp s.capacity 0 (Nat.zero_le e0) (by omega)
  have hjlt : cyc s.capacity (hash e.1 % s.capacity) p < s.capacity :=
    cyc_lt _ p hcap
  have hrunj : ∀ u, u < e0 - p →
      (bkt s.table (cyc s.capacity (cyc s.capacity (hash e.1 % s.capacity) p) u)).payload.isSome = true := by
    intro u hu
    rw [cyc_add]
    exact hoccs (p + u) (by omega)
  have hempj : (bkt s.table (cyc s.capacity (cyc s.capacity (hash e.1 % s.capacity) p) (e0 - p))).payload = none := by
    rw [cyc_add, show p + (e0 - p) = e0 from by omega]
    exact hemp
  have hshift := shiftLoop_go hjlt hT.1 (by omega) hrunj hempj s.capacity 0
    (Nat.zero_le _) (by omega)
  rw [shiftTable_zero hjlt hT.1, cyc_zero hjlt] at hshift
  refine ⟨p, e0, hpe0, he0lt, fun w hw => hwalk w (Nat.zero_le w) hw, hstop,
    hoccs, hemp, ?_⟩
  unfold SubTable.InsertElement
  rw [cyc_zero hhome] at hprobe
  rw [hprobe]
  simp only [Option.bind_eq_bind, Option.some_bind]
  rw [hshift]
  simp only [Option.some_bind]
  rfl

theorem countOcc_swapBuckets {cap : Nat} {t : List (Bucket K V)} {i j : Nat}
    (hi : i < cap) (hj : j < cap) (hlen : t.length = cap) :
    countOcc cap (swapBuckets t i j) = countOcc cap t := by
  by_cases hij : i = j
  · subst hij
    unfold swapBuckets
    have h1 := countOcc_set (t := t) hi hlen (bkt t i)
    have h2 : (t.set i (bkt t i)).length = cap := by simp [hlen]
    have h3 := countOcc_set (t := t.set i (bkt t i)) hi h2 (bkt t i)
    have h4 : occAt (t.set i (bkt t i)) i = (bkt t i).payload.isSome := by
      simp [occAt, bkt_set_self (hlen ▸ hi)]
    rw [h4] at h3
    unfold occAt at h1
    omega
  · unfold swapBuckets
    have h2 : (t.set i (bkt t j)).length = cap := by simp [hlen]
    have h1 := countOcc_set (t := t) hi hlen (bkt t j)
    have h3 := countOcc_set (t := t.set i (bkt t j)) hj h2 (bkt t i)
    have h4 : occAt (t.set i (bkt t j)) j = occAt t j := by
      simp [occAt, bkt_set_ne hij]
    rw [h4] at h3
    unfold occAt at h1 h3
    omega

theorem countOcc_bumpPsl {cap : Nat} {t : List (Bucket K V)} {i : Nat}
    (hi : i < cap) (hlen : t.length = cap) :
    countOcc cap (bumpPsl t i) = countOcc cap t := by
  unfold bumpPsl
  have h1 := countOcc_set (t := t) hi hlen ⟨(bkt t i).payload, (bkt t i).psl + 1⟩
  unfold occAt at h1
  simp only at h1
  omega

theorem HasPair_swapBuckets {cap : Nat} {t : List (Bucket K V)} {i j : Nat}
    (hi : i < cap) (hj : j < cap) (hlen : t.length = cap) {k : K} {v : V} :
    HasPair cap (swapBuckets t i j) k v ↔ HasPair cap t k v := by
  have hil : i < t.length := hlen ▸ hi
  have hjl : j < t.length := hlen ▸ hj
  constructor
  · rintro ⟨x, hx, hp⟩
    rw [bkt_swap t hil hjl x] at hp
    by_cases hxj : x = j
    · rw [if_pos hxj] at hp; exact ⟨i, hi, hp⟩
    · rw [if_neg hxj] at hp
      by_cases hxi : x = i
      · rw [if_pos hxi] at hp; exact ⟨j, hj, hp⟩
      · rw [if_neg hxi] at hp; exact ⟨x, hx, hp⟩
  · rintro ⟨x, hx, hp⟩
    by_cases hxi : x = i
    · refine ⟨j, hj, ?_⟩
      rw [bkt_swap t hil hjl j, if_pos rfl]
      exact hxi ▸ hp
    · by_cases hxj : x = j
      · have hij : i ≠ j := fun h => hxi (hxj.trans h.symm)
        refine ⟨i, hi, ?_⟩
        rw [bkt_swap t hil hjl i, if_neg hij, if_pos rfl]
        exact hxj ▸ hp
      · refine ⟨x, hx, ?_⟩
        rw [bkt_swap t hil hjl x, if_neg hxj, if_neg hxi]; exact hp

theorem HasPair_bumpPsl {cap : Nat} {t : List (Bucket K V)} {i : Nat}
    (hi : i < cap) (hlen : t.length = cap) {k : K} {v : V} :
    HasPair cap (bumpPsl t i) k v ↔ HasPair cap t k v := by
  have hil : i < t.length := hlen ▸ hi
  constructor
  · rintro ⟨x, hx, hp⟩
    rw [bkt_bump t hil x] at hp
    by_cases hxi : x = i
    · rw [if_pos hxi] at hp
      exact ⟨i, hi, hp⟩
    · rw [if_neg hxi] at hp; exact ⟨x, hx, hp⟩
  · rintro ⟨x, hx, hp⟩
    refine ⟨x, hx, ?_⟩
    rw [bkt_bump t hil x]
    by_cases hxi : x = i
    · rw [if_pos hxi, ← hxi]; exact hp
    · rw [if_neg hxi]; exact hp

theorem countOcc_shiftTable {cap start : Nat} {t : List (Bucket K V)}
    (hstart : start < cap) (hlen : t.length = cap) :
    ∀ k, k < cap → countOcc cap (shiftTable cap start k t) = countOcc cap t := by
  intro k
  induction k with
  | zero => intro _; rw [shiftTable_zero hstart hlen]
  | succ k ih =>
    intro hk1
    have hcap : 0 < cap := by omega
    rw [← shiftTable_step hstart hlen hk1]
    rw [countOcc_bumpPsl (cyc_lt start (k+1) hcap)
      (by rw [length_swapBuckets, length_shiftTable])]
    rw [countOcc_swapBuckets (cyc_lt start (k+1) hcap) hstart (length_shiftTable cap start k t)]
    exact ih (by omega)

theorem HasPair_shiftTable {cap start : Nat} {t : List (Bucket K V)}
    (hstart : start < cap) (hlen : t.length = cap) {k : K} {v : V} :
    ∀ r, r < cap → (HasPair cap (shiftTable cap start r t) k v ↔ HasPair cap t k v) := by
  intro r
  induction r with
  | zero => intro _; rw [shiftTable_zero hstart hlen]
  | succ r ih =>
    intro hk1
    have hcap : 0 < cap := by omega
    rw [← shiftTable_step hstart hlen hk1]
    rw [HasPair_bumpPsl (cyc_lt start (r+1) hcap)
      (by rw [length_swapBuckets, length_shiftTable])]
    rw [HasPair_swapBuckets (cyc_lt start (r+1) hcap) hstart (length_shiftTable cap start r t)]
    exact ih (by omega)

/-- Reading the table produced by an insertion at offset `u` from the
stop slot `j`: offset 0 holds the new payload, offsets `1..r` hold the
old run shifted by one with PSLs incremented, the rest is unchanged. -/
theorem bkt_insertResult {cap : Nat} {t : List (Bucket K V)} {j r : Nat}
    {e : K × V} {p : Nat} (hj : j < cap) (hlen : t.length = cap)
    {u : Nat} (hu : u < cap) :
    bkt ((shiftTable cap j r t).set j ⟨some e, p⟩) (cyc cap j u) =
      (if u = 0 then ⟨some e, p⟩
       else if u ≤ r then
         ⟨(bkt t (cyc cap j (u - 1))).payload, (bkt t (cyc cap j (u - 1))).psl + 1⟩
       else bkt t (cyc cap j u)) := by
  have hcap : 0 < cap := by omega
  by_cases hu0 : u = 0
  · subst hu0
    rw [cyc_zero hj, if_pos rfl]
    exact bkt_set_self (by rw [length_shiftTable]; exact hj) _
  · have hne : cyc cap j u ≠ j := by
      intro h
      have h0 : cyc cap j 0 = j := cyc_zero hj
      exact hu0 (cyc_inj hu hcap (h.trans h0.symm))
    rw [if_neg hu0]
    rw [bkt_set_ne (fun h => hne h.symm)]
    rw [bkt_shiftTable_cyc r t hj hu]
    rw [if_neg hu0]

/-- The strong table invariant is preserved by the insertion layout. -/
theorem TblOk_insertResult {hash : K → Nat} {cap : Nat} {t : List (Bucket K V)}
    {e : K × V} {p e0 : Nat}
    (hT : TblOk hash cap t) (hcount : countOcc cap t < cap) (hcap : 0 < cap)
    (hnk : ¬ HasKey cap t e.1)
    (hpe0 : p ≤ e0) (he0 : e0 < cap)
    (hwalk : ∀ w, w < p →
      (bkt t (cyc cap (hash e.1 % cap) w)).payload.isSome = true ∧
      w ≤ (bkt t (cyc cap (hash e.1 % cap) w)).psl)
    (hstop : ¬(p ≤ (bkt t (cyc cap (hash e.1 % cap) p)).psl ∧
      (bkt t (cyc cap (hash e.1 % cap) p)).payload.isSome = true))
    (hocc : ∀ u, u < e0 → (bkt t (cyc cap (hash e.1 % cap) u)).payload.isSome = true)
    (hemp : (bkt t (cyc cap (hash e.1 % cap) e0)).payload = none) :
    TblOk hash cap ((shiftTable cap (cyc cap (hash e.1 % cap) p) (e0 - p) t).set
      (cyc cap (hash e.1 % cap) p) ⟨some e, p⟩) := by
  have hj : cyc cap (hash e.1 % cap) p < cap := cyc_lt _ p hcap
  have hcyc_j : ∀ u : Nat, cyc cap (cyc cap (hash e.1 % cap) p) u =
      cyc cap (hash e.1 % cap) (p + u) := fun u => cyc_add
  have hlen : t.length = cap := hT.1
  have hread := fun {u : Nat} (hu : u < cap) =>
    bkt_insertResult (t := t) (r := e0 - p) (e := e) (p := p) hj hlen hu
  have hRlen : ((shiftTable cap (cyc cap (hash e.1 % cap) p) (e0 - p) t).set
      (cyc cap (hash e.1 % cap) p) ⟨some e, p⟩).length = cap := by
    rw [List.length_set, length_shiftTable]
  -- occupancy of the old run
  have hrunOcc : ∀ u, 1 ≤ u → u ≤ e0 - p →
      (bkt t (cyc cap (cyc cap (hash e.1 % cap) p) (u - 1))).payload.isSome = true := by
    intro u h1 h2
    rw [hcyc_j]
    exact hocc (p + (u - 1)) (by omega)
  refine ⟨hRlen, ?_, ?_⟩
  · -- per-slot PSL correctness and run condition
    intro i hi
    have hpu : cyc cap (cyc cap (hash e.1 % cap) p) (ringDist cap (cyc cap (hash e.1 % cap) p) i) = i :=
      cyc_ringDist hj hi
    set u := ringDist cap (cyc cap (hash e.1 % cap) p) i with hudef
    have hult : u < cap := ringDist_lt _ i hcap
    rw [← hpu]
    constructor
    · -- slotPslOk
      intro kv hkv
      rw [hread hult] at hkv ⊢
      by_cases hu0 : u = 0
      · rw [if_pos hu0] at hkv ⊢
        simp only [Option.mem_def, Option.some.injEq] at hkv
        subst hkv
        constructor
        · rw [hu0, cyc_zero hj]
        · exact Nat.lt_of_le_of_lt hpe0 he0
      · rw [if_neg hu0] at hkv ⊢
        by_cases hur : u ≤ e0 - p
        · rw [if_pos hur] at hkv ⊢
          simp only [Option.mem_def] at hkv
          have hoccu : (bkt t (cyc cap (cyc cap (hash e.1 % cap) p) (u - 1))).payload.isSome = true :=
            hrunOcc u (by omega) hur
          have hprev_lt : cyc cap (cyc cap (hash e.1 % cap) p) (u - 1) < cap := cyc_lt _ _ hcap
          have hold := (hT.2.1 _ hprev_lt).1 kv (by rw [hkv]; rfl)
          refine ⟨?_, ?_⟩
          · have e1 : cyc cap (cyc cap (hash e.1 % cap) p) u =
                cyc cap (cyc cap (cyc cap (hash e.1 % cap) p) (u - 1)) 1 := by
              conv_rhs => rw [cyc_add]
              rw [show u - 1 + 1 = u from by omega]
            conv_lhs => rw [e1, hold.1, cyc_add]
          · show (bkt t (cyc cap (cyc cap (hash e.1 % cap) p) (u - 1))).psl + 1 < cap
            have := psl_lt_countOcc hT hcap hprev_lt hkv
            omega
        · rw [if_neg hur] at hkv ⊢
          exact (hT.2.1 _ (cyc_lt _ u hcap)).1 kv hkv
    · -- slotRunOk
      intro kv hkv hpos
      rw [hread hult] at hkv hpos ⊢
      by_cases hu0 : u = 0
      · rw [if_pos hu0] at hkv hpos ⊢
        have hp0 : 0 < p := hpos
        -- the new payload has PSL p > 0; its predecessor is the walked slot p-1
        have hcapge2 : 2 ≤ cap := by
          have : p < cap := Nat.lt_of_le_of_lt hpe0 he0
          omega
        have hprev : PrevPos cap (cyc cap (cyc cap (hash e.1 % cap) p) u) =
            cyc cap (hash e.1 % cap) (p - 1) := by
          rw [hu0, cyc_zero hj]
          rw [show p = (p - 1) + 1 from by omega]
          exact PrevPos_cyc _ _ hcap
        rw [hprev]
        have hwrap : cyc cap (hash e.1 % cap) (p - 1) =
            cyc cap (cyc cap (hash e.1 % cap) p) (cap - 1) := by
          rw [hcyc_j]
          unfold cyc
          rw [show hash e.1 % cap + (p + (cap - 1)) = (hash e.1 % cap + (p - 1)) + cap from by omega]
          rw [Nat.add_mod_right]
        rw [hwrap]
        rw [hread (by omega : cap - 1 < cap)]
        rw [if_neg (by omega), if_neg (by omega)]
        rw [← hwrap]
        have hw := hwalk (p - 1) (by omega)
        refine ⟨hw.1, ?_⟩
        show p ≤ (bkt t (cyc cap (hash e.1 % cap) (p - 1))).psl + 1
        omega
      · rw [if_neg hu0] at hkv hpos ⊢
        have hprev : PrevPos cap (cyc cap (cyc cap (hash e.1 % cap) p) u) =
            cyc cap (cyc cap (hash e.1 % cap) p) (u - 1) := by
          rw [show u = (u - 1) + 1 from by omega]
          exact PrevPos_cyc _ _ hcap
        rw [hprev]
        by_cases hur : u ≤ e0 - p
        · rw [if_pos hur] at hkv hpos ⊢
          rw [hread (by omega : u - 1 < cap)]
          by_cases hu1 : u - 1 = 0
          · rw [if_pos hu1]
            -- predecessor is the new payload with PSL p
            have hu1' : u = 1 := by omega
            have hoccj : (bkt t (cyc cap (hash e.1 % cap) p)).payload.isSome = true := by
              have := hocc p (by omega)
              exact this
            have hpslj : (bkt t (cyc cap (hash e.1 % cap) p)).psl < p := by
              by_contra hcon
              exact hstop ⟨by omega, hoccj⟩
            have : cyc cap (cyc cap (hash e.1 % cap) p) (u - 1) =
                cyc cap (hash e.1 % cap) p := by
              rw [hu1, cyc_zero hj]
            rw [this]
            refine ⟨rfl, ?_⟩
            show (bkt t (cyc cap (hash e.1 % cap) p)).psl + 1 ≤ p + 1
            omega
          · rw [if_neg hu1, if_pos (by omega : u - 1 ≤ e0 - p)]
            -- predecessor is the shifted copy of the slot before
            have hocc1 : (bkt t (cyc cap (cyc cap (hash e.1 % cap) p) (u - 1 - 1))).payload.isSome = true := by
              rw [hcyc_j]
              exact hocc (p + (u - 1 - 1)) (by omega)
            constructor
            · simp only [Option.isSome_some]
              exact hocc1 ▸ rfl
            · -- old run condition between u-1-1 and u-1
              show (bkt t (cyc cap (cyc cap (hash e.1 % cap) p) (u - 1))).psl + 1 ≤
                (bkt t (cyc cap (cyc cap (hash e.1 % cap) p) (u - 1 - 1))).psl + 1 + 1
              obtain ⟨kv1, hkv1⟩ := Option.isSome_iff_exists.mp (hrunOcc u (by omega) hur)
              by_cases hq : 0 < (bkt t (cyc cap (cyc cap (hash e.1 % cap) p) (u - 1))).psl
              · have hold := (hT.2.1 _ (cyc_lt _ (u - 1) hcap)).2 kv1 (by rw [hkv1]; rfl) hq
                have hprev2 : PrevPos cap (cyc cap (cyc cap (hash e.1 % cap) p) (u - 1)) =
                    cyc cap (cyc cap (hash e.1 % cap) p) (u - 1 - 1) := by
                  rw [show u - 1 = (u - 1 - 1) + 1 from by omega]
                  exact PrevPos_cyc _ _ hcap
                rw [hprev2] at hold
                omega
              · omega
        · rw [if_neg hur] at hkv hpos ⊢
          by_cases hur1 : u - 1 = e0 - p
          · -- the slot right after the old first-empty slot: its PSL is 0
            exfalso
            have hjlt : cyc cap (cyc cap (hash e.1 % cap) p) u < cap := cyc_lt _ u hcap
            have hold := (hT.2.1 _ hjlt).2 kv hkv hpos
            have hprev2 : PrevPos cap (cyc cap (cyc cap (hash e.1 % cap) p) u) =
                cyc cap (cyc cap (hash e.1 % cap) p) (u - 1) := by
              rw [show u = (u - 1) + 1 from by omega]
              exact PrevPos_cyc _ _ hcap
            rw [hprev2, hur1] at hold
            rw [hcyc_j, show p + (e0 - p) = e0 from by omega] at hold
            rw [hemp] at hold
            simp at hold
          · rw [hread (by omega : u - 1 < cap)]
            rw [if_neg (by omega), if_neg (by omega)]
            have hjlt : cyc cap (cyc cap (hash e.1 % cap) p) u < cap := cyc_lt _ u hcap
            have hold := (hT.2.1 _ hjlt).2 kv hkv hpos
            have hprev2 : PrevPos cap (cyc cap (cyc cap (hash e.1 % cap) p) u) =
                cyc cap (cyc cap (hash e.1 % cap) p) (u - 1) := by
              rw [show u = (u - 1) + 1 from by omega]
              exact PrevPos_cyc _ _ hcap
            rw [hprev2] at hold
            exact hold
  · -- uniqueness
    intro i1 hi1 i2 hi2 kv1 hkv1 kv2 hkv2 hkeys
    have hpu1 : cyc cap (cyc cap (hash e.1 % cap) p) (ringDist cap (cyc cap (hash e.1 % cap) p) i1) = i1 :=
      cyc_ringDist hj hi1
    have hpu2 : cyc cap (cyc cap (hash e.1 % cap) p) (ringDist cap (cyc cap (hash e.1 % cap) p) i2) = i2 :=
      cyc_ringDist hj hi2
    set u1 := ringDist cap (cyc cap (hash e.1 % cap) p) i1 with hu1def
    set u2 := ringDist cap (cyc cap (hash e.1 % cap) p) i2 with hu2def
    have hult1 : u1 < cap := ringDist_lt _ i1 hcap
    have hult2 : u2 < cap := ringDist_lt _ i2 hcap
    rw [← hpu1] at hkv1
    rw [← hpu2] at hkv2
    rw [hread hult1] at hkv1
    rw [hread hult2] at hkv2
    rw [← hpu1, ← hpu2]
    -- map each slot to the old slot its payload came from
    have hsrc : ∀ u, u < cap → u ≠ 0 → ∀ kv : K × V,
        kv ∈ (if u = 0 then (⟨some e, p⟩ : Bucket K V)
          else if u ≤ e0 - p then
            ⟨(bkt t (cyc cap (cyc cap (hash e.1 % cap) p) (u - 1))).payload,
             (bkt t (cyc cap (cyc cap (hash e.1 % cap) p) (u - 1))).psl + 1⟩
          else bkt t (cyc cap (cyc cap (hash e.1 % cap) p) u)).payload →
        ∃ w, w < cap ∧ (bkt t (cyc cap (cyc cap (hash e.1 % cap) p) w)).payload = some kv ∧
          ((u ≤ e0 - p ∧ w = u - 1) ∨ (¬ u ≤ e0 - p ∧ w = u)) := by
      intro u hu hu0 kv hkv
      rw [if_neg hu0] at hkv
      by_cases hur : u ≤ e0 - p
      · rw [if_pos hur] at hkv
        exact ⟨u - 1, by omega, hkv, Or.inl ⟨hur, rfl⟩⟩
      · rw [if_neg hur] at hkv
        exact ⟨u, hu, hkv, Or.inr ⟨hur, rfl⟩⟩
    by_cases h10 : u1 = 0
    · by_cases h20 : u2 = 0
      · rw [h10, h20]
      · exfalso
        rw [if_pos h10] at hkv1
        simp only [Option.mem_def, Option.some.injEq] at hkv1
        obtain ⟨w, hw, hwp, _⟩ := hsrc u2 hult2 h20 kv2 hkv2
        apply hnk
        refine ⟨cyc cap (cyc cap (hash e.1 % cap) p) w, cyc_lt _ w hcap, ?_⟩
        rw [hwp]
        show some kv2.1 = some e.1
        rw [← hkeys, hkv1]
    · by_cases h20 : u2 = 0
      · exfalso
        rw [if_pos h20] at hkv2
        simp only [Option.mem_def, Option.some.injEq] at hkv2
        obtain ⟨w, hw, hwp, _⟩ := hsrc u1 hult1 h10 kv1 hkv1
        apply hnk
        refine ⟨cyc cap (cyc cap (hash e.1 % cap) p) w, cyc_lt _ w hcap, ?_⟩
        rw [hwp]
        show some kv1.1 = some e.1
        rw [hkeys, hkv2]
      · obtain ⟨w1, hw1, hwp1, hcase1⟩ := hsrc u1 hult1 h10 kv1 hkv1
        obtain ⟨w2, hw2, hwp2, hcase2⟩ := hsrc u2 hult2 h20 kv2 hkv2
        have hww : cyc cap (cyc cap (hash e.1 % cap) p) w1 =
            cyc cap (cyc cap (hash e.1 % cap) p) w2 :=
          hT.2.2 _ (cyc_lt _ w1 hcap) _ (cyc_lt _ w2 hcap) kv1 (by rw [hwp1]; rfl)
            kv2 (by rw [hwp2]; rfl) hkeys
        have hw12 : w1 = w2 := cyc_inj hw1 hw2 hww
        have hu12 : u1 = u2 := by
          rcases hcase1 with ⟨hc1, rfl⟩ | ⟨hc1, rfl⟩ <;>
            rcases hcase2 with ⟨hc2, rfl⟩ | ⟨hc2, rfl⟩ <;> omega
        rw [hu12]

theorem bkt_eq_getElem {t : List (Bucket K V)} {i : Nat} (h : i < t.length) :
    bkt t i = t[i] := by
  unfold bkt
  rw [List.getD_eq_getElem?_getD, List.getElem?_eq_getElem h]
  rfl

theorem HasPair_set_of_empty {cap : Nat} {t : List (Bucket K V)} {i : Nat}
    (hi : i < cap) (hlen : t.length = cap)
    (hemp : (bkt t i).payload = none) (b : Bucket K V) {k : K} {v : V} :
    HasPair cap (t.set i b) k v ↔ (b.payload = some (k, v) ∨ HasPair cap t k v) := by
  constructor
  · rintro ⟨x, hx, hp⟩
    by_cases hxi : x = i
    · subst hxi
      rw [bkt_set_self (hlen ▸ hi)] at hp
      exact Or.inl hp
    · rw [bkt_set_ne (fun h => hxi h.symm)] at hp
      exact Or.inr ⟨x, hx, hp⟩
  · rintro (hb | ⟨x, hx, hp⟩)
    · exact ⟨i, hi, by rw [bkt_set_self (hlen ▸ hi)]; exact hb⟩
    · have hxi : x ≠ i := by
        intro h
        rw [h, hemp] at hp
        cases hp
      exact ⟨x, hx, by rw [bkt_set_ne (fun h => hxi h.symm)]; exact hp⟩

/-- Complete specification of `InsertElement` on a valid table with a
fresh key: some result, same capacity and size field, strong invariant,
one more occupied slot, and contents extended by the new pair. -/
theorem InsertElement_spec {hash : K → Nat} {s : SubTable K V} {e : K × V}
    (hT : TblOk hash s.capacity s.table)
    (hcount : countOcc s.capacity s.table < s.capacity)
    (hcap : 0 < s.capacity)
    (hnk : ¬ HasKey s.capacity s.table e.1) :
    ∃ s', s.InsertElement hash e = some s' ∧
      s'.capacity = s.capacity ∧ s'.size = s.size ∧
      TblOk hash s.capacity s'.table ∧
      countOcc s.capacity s'.table = countOcc s.capacity s.table + 1 ∧
      (∀ k v, HasPair s.capacity s'.table k v ↔
        ((k, v) = e ∨ HasPair s.capacity s.table k v)) := by
  obtain ⟨p, e0, hpe0, he0, hwalk, hstop, hocc, hemp, heq⟩ :=
    InsertElement_run e hT hcount hcap
  have hj : cyc s.capacity (hash e.1 % s.capacity) p < s.capacity := cyc_lt _ p hcap
  have hSTlen : (shiftTable s.capacity (cyc s.capacity (hash e.1 % s.capacity) p)
      (e0 - p) s.table).length = s.capacity := length_shiftTable _ _ _ _
  have hSTj : bkt (shiftTable s.capacity (cyc s.capacity (hash e.1 % s.capacity) p)
      (e0 - p) s.table) (cyc s.capacity (hash e.1 % s.capacity) p) =
      bkt s.table (cyc s.capacity (cyc s.capacity (hash e.1 % s.capacity) p) (e0 - p)) :=
    bkt_shiftTable_start _ s.table hj
  have hempj : (bkt s.table (cyc s.capacity (cyc s.capacity (hash e.1 % s.capacity) p) (e0 - p))).payload = none := by
    rw [cyc_add, show p + (e0 - p) = e0 from by omega]
    exact hemp
  refine ⟨_, heq, rfl, rfl, ?_, ?_, ?_⟩
  · exact TblOk_insertResult hT hcount hcap hnk hpe0 he0 hwalk hstop hocc hemp
  · have hset := countOcc_set (t := shiftTable s.capacity (cyc s.capacity (hash e.1 % s.capacity) p) (e0 - p) s.table)
      hj hSTlen ⟨some e, p⟩
    have hoccj : occAt (shiftTable s.capacity (cyc s.capacity (hash e.1 % s.capacity) p) (e0 - p) s.table)
        (cyc s.capacity (hash e.1 % s.capacity) p) = false := by
      unfold occAt
      rw [hSTj, hempj]
      rfl
    rw [hoccj] at hset
    simp only [Bool.false_eq_true, if_false, Nat.add_zero] at hset
    rw [countOcc_shiftTable hj hT.1 (e0 - p) (by omega)] at hset
    simpa using hset
  · intro k v
    have h1 := HasPair_set_of_empty (t := shiftTable s.capacity (cyc s.capacity (hash e.1 % s.capacity) p) (e0 - p) s.table)
      hj hSTlen (by rw [hSTj]; exact hempj) ⟨some e, p⟩ (k := k) (v := v)
    rw [h1]
    rw [HasPair_shiftTable hj hT.1 (e0 - p) (by omega)]
    constructor
    · rintro (hb | hp)
      · simp only [Option.some.injEq] at hb
        exact Or.inl hb.symm
      · exact Or.inr hp
    · rintro (hb | hp)
      · exact Or.inl (by rw [hb])
      · exact Or.inr hp

/-- Occupied buckets in a bucket list. -/
def occb (l : List (Bucket K V)) : Nat :=
  (l.filter (fun b => b.payload.isSome)).length

theorem occb_nil : occb ([] : List (Bucket K V)) = 0 := rfl

theorem occb_cons (b : Bucket K V) (l : List (Bucket K V)) :
    occb (b :: l) = (if b.payload.isSome then 1 else 0) + occb l := by
  unfold occb
  rw [List.filter_cons]
  by_cases hb : b.payload.isSome <;> simp [hb] <;> omega

theorem countOcc_eq_occb : ∀ t : List (Bucket K V), countOcc t.length t = occb t := by
  intro t
  induction t with
  | nil => rfl
  | cons b l ih =>
    unfold countOcc
    rw [List.length_cons, List.range_succ_eq_map]
    rw [List.filter_cons]
    have h0 : occAt (b :: l) 0 = b.payload.isSome := by
      simp [occAt, bkt, List.getD_cons_zero]
    have hmap : ((List.range l.length).map Nat.succ).filter (occAt (b :: l)) =
        ((List.range l.length).filter (occAt (b :: l) ∘ Nat.succ)).map Nat.succ :=
      List.filter_map Nat.succ (List.range l.length)
    have hcomp : (List.range l.length).filter (occAt (b :: l) ∘ Nat.succ) =
        (List.range l.length).filter (occAt l) := by
      apply List.filter_congr
      intro i _
      simp [Function.comp, occAt, bkt, List.getD_cons_succ]
    rw [h0, occb_cons]
    by_cases hb : b.payload.isSome
    · rw [if_pos hb, if_pos hb]
      rw [List.length_cons, hmap, hcomp, List.length_map]
      have := ih
      unfold countOcc at this
      omega
    · rw [if_neg hb, if_neg hb]
      rw [hmap, hcomp, List.length_map]
      have := ih
      unfold countOcc at this
      omega

theorem TblOk_replicate {hash : K → Nat} (n : Nat) :
    TblOk hash n (List.replicate n (emptyBucket : Bucket K V)) := by
  refine ⟨by simp, ?_, ?_⟩
  · intro i _
    constructor
    · intro kv hkv
      rw [bkt_replicate] at hkv
      cases hkv
    · intro kv hkv
      rw [bkt_replicate] at hkv
      cases hkv
  · intro i _ j _ kvi hkvi
    rw [bkt_replicate] at hkvi
    cases hkvi

theorem countOcc_replicate (n : Nat) :
    countOcc n (List.replicate n (emptyBucket : Bucket K V)) = 0 := by
  unfold countOcc
  have : (List.range n).filter (occAt (List.replicate n (emptyBucket : Bucket K V))) = [] := by
    rw [show occAt (List.replicate n (emptyBucket : Bucket K V)) = fun _ => false from ?_]
    · exact List.filter_false _
    · funext i
      unfold occAt
      rw [bkt_replicate]
      rfl
  rw [this]
  rfl

theorem not_HasPair_replicate (n : Nat) (k : K) (v : V) :
    ¬ HasPair n (List.replicate n (emptyBucket : Bucket K V)) k v := by
  rintro ⟨i, _, hp⟩
  rw [bkt_replicate] at hp
  cases hp

theorem HasPair_iff_mem {cap : Nat} {t : List (Bucket K V)} (hlen : t.length = cap)
    {k : K} {v : V} :
    HasPair cap t k v ↔ ∃ b ∈ t, b.payload = some (k, v) := by
  constructor
  · rintro ⟨i, hi, hp⟩
    have hil : i < t.length := by omega
    refine ⟨t.get ⟨i, hil⟩, List.get_mem t i hil, ?_⟩
    have hb : bkt t i = t.get ⟨i, hil⟩ := bkt_eq_getElem hil
    rw [← hb]
    exact hp
  · rintro ⟨b, hb, hp⟩
    obtain ⟨i, hi, hbi⟩ := List.mem_iff_getElem.mp hb
    refine ⟨i, by omega, ?_⟩
    rw [bkt_eq_getElem hi, hbi]
    exact hp

theorem tbl_pairwise {hash : K → Nat} {cap : Nat} {t : List (Bucket K V)}
    (hT : TblOk hash cap t) :
    t.Pairwise (fun b1 b2 => ∀ kv1 ∈ b1.payload, ∀ kv2 ∈ b2.payload, kv1.1 ≠ kv2.1) := by
  rw [List.pairwise_iff_getElem]
  intro i j hi hj hij kv1 hkv1 kv2 hkv2 hk
  have hlen := hT.1
  have h1 : (bkt t i).payload = some kv1 := by
    rw [bkt_eq_getElem hi]; exact hkv1
  have h2 : (bkt t j).payload = some kv2 := by
    rw [bkt_eq_getElem hj]; exact hkv2
  have := hT.2.2 i (by omega) j (by omega) kv1 (by rw [h1]; rfl) kv2 (by rw [h2]; rfl) hk
  omega

/-- The re-insertion fold of `ReHash`: inserting a list of distinct-keyed
occupied buckets into a valid accumulator table. -/
theorem rehash_fold (hash : K → Nat) (c2 : Nat) :
    ∀ todo : List (Bucket K V), ∀ acc : SubTable K V,
      acc.capacity = c2 → TblOk hash c2 acc.table →
      countOcc c2 acc.table + occb todo ≤ c2 →
      (∀ b ∈ todo, ∀ kv ∈ b.payload, ¬ HasKey c2 acc.table kv.1) →
      todo.Pairwise (fun b1 b2 => ∀ kv1 ∈ b1.payload, ∀ kv2 ∈ b2.payload, kv1.1 ≠ kv2.1) →
      ∃ s', (todo.foldlM (fun acc b =>
          match b.payload with
          | none => pure acc
          | some kv => acc.InsertElement hash kv) acc) = some s' ∧
        s'.capacity = c2 ∧ s'.size = acc.size ∧
        TblOk hash c2 s'.table ∧
        countOcc c2 s'.table = countOcc c2 acc.table + occb todo ∧
        (∀ k v, HasPair c2 s'.table k v ↔
          (HasPair c2 acc.table k v ∨ ∃ b ∈ todo, b.payload = some (k, v))) := by
  intro todo
  induction todo with
  | nil =>
    intro acc hc hT hcnt _ _
    refine ⟨acc, rfl, hc, rfl, hT, by rw [occb_nil]; omega, ?_⟩
    intro k v
    simp
  | cons b todo ih =>
    intro acc hc hT hcnt hfresh hpair
    rw [List.pairwise_cons] at hpair
    rcases hb : b.payload with _ | kv
    · -- empty bucket: skipped
      have hstep : (b :: todo).foldlM (fun acc b =>
          match b.payload with
          | none => pure acc
          | some kv => acc.InsertElement hash kv) acc =
          todo.foldlM (fun acc b =>
            match b.payload with
            | none => pure acc
            | some kv => acc.InsertElement hash kv) acc := by
        rw [List.foldlM_cons, hb]
        rfl
      rw [hstep]
      have hcnt' : countOcc c2 acc.table + occb todo ≤ c2 := by
        rw [occb_cons, hb] at hcnt
        simpa using hcnt
      obtain ⟨s', h1, h2, h3, h4, h5, h6⟩ := ih acc hc hT hcnt'
        (fun b' hb' => hfresh b' (List.mem_cons_of_mem _ hb')) hpair.2
      refine ⟨s', h1, h2, h3, h4, ?_, ?_⟩
      · rw [h5, occb_cons, hb]
        simp
      · intro k v
        rw [h6]
        constructor
        · rintro (h | h)
          · exact Or.inl h
          · exact Or.inr (by
              obtain ⟨b', hb', hp'⟩ := h
              exact ⟨b', List.mem_cons_of_mem _ hb', hp'⟩)
        · rintro (h | ⟨b', hb', hp'⟩)
          · exact Or.inl h
          · rcases List.mem_cons.mp hb' with rfl | hmem
            · rw [hb] at hp'; cases hp'
            · exact Or.inr ⟨b', hmem, hp'⟩
    · -- occupied bucket: insert it
      have hcap2 : 0 < c2 := by
        rw [occb_cons, hb] at hcnt
        simp at hcnt
        omega
      have hcnt0 : countOcc c2 acc.table < c2 := by
        rw [occb_cons, hb] at hcnt
        simp at hcnt
        omega
      have hnk : ¬ HasKey c2 acc.table kv.1 :=
        hfresh b (List.mem_cons_self b todo) kv (by rw [hb]; rfl)
      obtain ⟨a1, ha1, ha1c, ha1s, ha1T, ha1cnt, ha1hp⟩ :=
        InsertElement_spec (s := acc) (e := kv)
          (by rw [hc]; exact hT) (by rw [hc]; exact hcnt0) (by rw [hc]; exact hcap2)
          (by rw [hc]; exact hnk)
      have hstep : (b :: todo).foldlM (fun acc b =>
          match b.payload with
          | none => pure acc
          | some kv => acc.InsertElement hash kv) acc =
          todo.foldlM (fun acc b =>
            match b.payload with
            | none => pure acc
            | some kv => acc.InsertElement hash kv) a1 := by
        rw [List.foldlM_cons, hb]
        rw [show (match some kv with
          | none => pure acc
          | some kv => acc.InsertElement hash kv) = acc.InsertElement hash kv from rfl]
        rw [ha1]
        rfl
      rw [hstep]
      have ha1c' : a1.capacity = c2 := by rw [ha1c, hc]
      have ha1T' : TblOk hash c2 a1.table := by rw [← hc]; exact ha1T
      have ha1cnt' : countOcc c2 a1.table = countOcc c2 acc.table + 1 := by
        rw [← hc]; rw [ha1cnt]
      have hcnt' : countOcc c2 a1.table + occb todo ≤ c2 := by
        rw [ha1cnt']
        rw [occb_cons, hb] at hcnt
        simp at hcnt
        omega
      have hfresh' : ∀ b' ∈ todo, ∀ kv' ∈ b'.payload, ¬ HasKey c2 a1.table kv'.1 := by
        intro b' hb' kv' hkv' hK
        obtain ⟨v', hv'⟩ := hasKey_iff_pair.mp hK
        have := (ha1hp kv'.1 v').mp (by rw [← hc] at hv'; exact hv')
        rcases this with heq | hold
        · have : kv'.1 = kv.1 := by rw [← heq]
          exact hpair.1 b' hb' kv (by rw [hb]; rfl) kv' hkv' this.symm
        · exact hfresh b' (List.mem_cons_of_mem _ hb') kv' hkv'
            (hasKey_iff_pair.mpr ⟨v', by rw [← hc]; exact hold⟩)
      obtain ⟨s', h1, h2, h3, h4, h5, h6⟩ := ih a1 ha1c' ha1T' hcnt' hfresh' hpair.2
      refine ⟨s', h1, h2, by rw [h3, ha1s], h4, ?_, ?_⟩
      · rw [h5, ha1cnt', occb_cons, hb]
        simp only [Option.isSome_some, if_true]
        omega
      · intro k v
        rw [h6]
        constructor
        · rintro (h | h)
          · have := (ha1hp k v).mp (by rw [← hc] at h; exact h)
            rcases this with heq | hold
            · exact Or.inr ⟨b, List.mem_cons_self b todo, by rw [hb, heq]⟩
            · exact Or.inl (by rw [hc] at hold; exact hold)
          · exact Or.inr (by
              obtain ⟨b', hb', hp'⟩ := h
              exact ⟨b', List.mem_cons_of_mem _ hb', hp'⟩)
        · rintro (h | ⟨b', hb', hp'⟩)
          · refine Or.inl ?_
            rw [← hc]
            rw [ha1hp k v]
            exact Or.inr (by rw [hc]; exact h)
          · rcases List.mem_cons.mp hb' with rfl | hmem
            · refine Or.inl ?_
              rw [← hc, ha1hp k v]
              rw [hb] at hp'
              exact Or.inl (by injection hp' with h'; rw [h'])
            · exact Or.inr ⟨b', hmem, hp'⟩

/-- Specification of `ReHash`: capacity doubles, the size field is kept,
the invariant holds at the new capacity, and the contents (hence the
occupied count) are preserved — every live entry is re-hashed with its
PSL recomputed against the new capacity (that is what the invariant at
capacity `2·c` expresses). -/
theorem ReHash_spec {hash : K → Nat} {s : SubTable K V}
    (hT : TblOk hash s.capacity s.table) (hcap : 0 < s.capacity)
    (hcnt : countOcc s.capacity s.table ≤ s.capacity) :
    ∃ s', s.ReHash hash = some s' ∧
      s'.capacity = s.capacity * 2 ∧ s'.size = s.size ∧
      TblOk hash (s.capacity * 2) s'.table ∧
      countOcc (s.capacity * 2) s'.table = countOcc s.capacity s.table ∧
      (∀ k v, HasPair (s.capacity * 2) s'.table k v ↔ HasPair s.capacity s.table k v) := by
  have hlen : s.table.length = s.capacity := hT.1
  have hocceq : countOcc s.capacity s.table = occb s.table := by
    rw [← hlen]
    exact countOcc_eq_occb s.table
  have hfold := rehash_fold hash (s.capacity * 2) s.table
    ({ s with capacity := s.capacity * 2,
              table := List.replicate (s.capacity * 2) emptyBucket } : SubTable K V)
    rfl (TblOk_replicate _)
    (by rw [countOcc_replicate, ← hocceq]; omega)
    (by
      intro b _ kv _ hK
      obtain ⟨v, hv⟩ := hasKey_iff_pair.mp hK
      exact not_HasPair_replicate _ _ _ hv)
    (tbl_pairwise hT)
  obtain ⟨s', h1, h2, h3, h4, h5, h6⟩ := hfold
  refine ⟨s', h1, h2, h3, h4, ?_, ?_⟩
  · rw [h5, countOcc_replicate, ← hocceq]
    omega
  · intro k v
    rw [h6 k v]
    constructor
    · rintro (h | h)
      · exact absurd h (not_HasPair_replicate _ _ _)
      · exact (HasPair_iff_mem hlen).mpr h
    · intro h
      exact Or.inr ((HasPair_iff_mem hlen).mp h)

/-- `SubTable::insert` on a present key: returns `false`, state unchanged. -/
theorem insert_spec_present {hash : K → Nat} {s : SubTable K V} {e : K × V}
    (hInv : Inv hash s) (hk : HasKey s.capacity s.table e.1) :
    s.insert hash e = some (false, s) := by
  obtain ⟨v, hpair⟩ := hasKey_iff_pair.mp hk
  obtain ⟨i, hfind, _⟩ := find_complete hInv.1 hInv.cap_pos hpair
  unfold SubTable.insert
  rw [hfind]
  rfl

/-- `SubTable::insert` on an absent key: returns `true`, increments
`size`, extends the contents by exactly the new pair, preserves the full
invariant, and resizes (doubling the capacity) exactly when the updated
size reaches half the capacity. -/
theorem insert_spec_absent {hash : K → Nat} {s : SubTable K V} {e : K × V}
    (hInv : Inv hash s) (hnk : ¬ HasKey s.capacity s.table e.1) :
    ∃ s', s.insert hash e = some (true, s') ∧ Inv hash s' ∧
      s'.size = s.size + 1 ∧
      ((2 * (s.size + 1) < s.capacity ∧ s'.capacity = s.capacity) ∨
        (s.capacity ≤ 2 * (s.size + 1) ∧ s'.capacity = s.capacity * 2)) ∧
      (∀ k v, HasPair s'.capacity s'.table k v ↔
        ((k, v) = e ∨ HasPair s.capacity s.table k v)) := by
  have hcap := hInv.cap_pos
  have hcnt := hInv.countOcc_lt
  have hfind : s.find hash e.1 = some none :=
    (find_none_iff hInv.1 hcnt hcap).mpr hnk
  obtain ⟨s1, ha1, ha1c, ha1s, ha1T, ha1cnt, ha1hp⟩ :=
    InsertElement_spec (e := e) hInv.1 hcnt hcap hnk
  obtain ⟨m, hm⟩ := hInv.2.2.2
  have hsz : s.size = countOcc s.capacity s.table := hInv.2.1
  have hload : 2 * s.size ≤ s.capacity := hInv.2.2.1
  unfold SubTable.insert
  rw [hfind]
  simp only [Option.bind_eq_bind, Option.some_bind]
  rw [ha1]
  simp only [Option.some_bind]
  simp only [ha1c, ha1s]
  by_cases htrig : s.capacity ≤ 2 * (s.size + 1)
  · rw [if_pos htrig]
    obtain ⟨s3, h31, h32, h33, h34, h35, h36⟩ :=
      ReHash_spec (s := ({ size := s.size + 1, capacity := s.capacity, table := s1.table } : SubTable K V))
        ha1T hcap (by show countOcc s.capacity s1.table ≤ s.capacity; omega)
    rw [h31]
    simp only [Option.some_bind]
    have hc8 : 8 ≤ s.capacity := by
      rw [hm]
      have : 1 ≤ 2 ^ m := Nat.one_le_two_pow
      omega
    refine ⟨s3, rfl, ?_, ?_, ?_, ?_⟩
    · refine ⟨?_, ?_, ?_, ?_⟩
      · rw [h32]
        exact h34
      · rw [h33, h32, h35]
        show s.size + 1 = countOcc s.capacity s1.table
        rw [ha1cnt, ← hsz]
      · rw [h33, h32]
        show 2 * (s.size + 1) ≤ s.capacity * 2
        omega
      · refine ⟨m + 1, ?_⟩
        rw [h32]
        show s.capacity * 2 = 8 * 2 ^ (m + 1)
        rw [hm]
        ring
    · rw [h33]
    · exact Or.inr ⟨htrig, by rw [h32]⟩
    · intro k v
      rw [h32, h36 k v]
      show HasPair s.capacity s1.table k v ↔ _
      exact ha1hp k v
  · rw [if_neg htrig]
    refine ⟨({ size := s.size + 1, capacity := s.capacity, table := s1.table } : SubTable K V),
      rfl, ?_, ?_, ?_, ?_⟩
    · refine ⟨?_, ?_, ?_, ?_⟩
      · exact ha1T
      · show s.size + 1 = countOcc s.capacity s1.table
        rw [ha1cnt, ← hsz]
      · show 2 * (s.size + 1) ≤ s.capacity
        omega
      · exact ⟨m, hm⟩
    · rfl
    · exact Or.inl ⟨by omega, rfl⟩
    · intro k v
      show HasPair s.capacity s1.table k v ↔ _
      exact ha1hp k v

/-! ## The back-shift performed by `erase` -/

/-- Pointwise description of back-shift compaction from slot `x` (already
marked deleted): the `r` buckets after `x` move back one slot with PSLs
decremented, the marker bucket ends at offset `r`, the rest is unchanged. -/
def backTable (cap x r : Nat) (t : List (Bucket K V)) : List (Bucket K V) :=
  (List.range cap).map (fun pos =>
    let u := ringDist cap x pos
    if u < r then
      ⟨(bkt t ((x + (u + 1)) % cap)).payload, (bkt t ((x + (u + 1)) % cap)).psl - 1⟩
    else if u = r then bkt t x
    else bkt t pos)

theorem length_backTable (cap x r : Nat) (t : List (Bucket K V)) :
    (backTable cap x r t).length = cap := by
  simp [backTable]

theorem bkt_backTable {cap x : Nat} (r : Nat) (t : List (Bucket K V))
    {p : Nat} (hp : p < cap) :
    bkt (backTable cap x r t) p =
      (if ringDist cap x p < r then
        ⟨(bkt t ((x + (ringDist cap x p + 1)) % cap)).payload,
         (bkt t ((x + (ringDist cap x p + 1)) % cap)).psl - 1⟩
       else if ringDist cap x p = r then bkt t x
       else bkt t p) := by
  unfold backTable bkt
  simp [List.getD, List.getElem?_map, List.getElem?_range, hp]

theorem bkt_backTable_cyc {cap : Nat} {x : Nat} (r : Nat)
    (t : List (Bucket K V)) {u : Nat} (hx : x < cap) (hu : u < cap) :
    bkt (backTable cap x r t) (cyc cap x u) =
      (if u < r then
        ⟨(bkt t (cyc cap x (u + 1))).payload, (bkt t (cyc cap x (u + 1))).psl - 1⟩
       else if u = r then bkt t x
       else bkt t (cyc cap x u)) := by
  have hcap : 0 < cap := by omega
  rw [bkt_backTable r t (cyc_lt x u hcap)]
  rw [ringDist_cyc hx hu]
  rfl

theorem backTable_zero {cap : Nat} {x : Nat} {t : List (Bucket K V)}
    (hx : x < cap) (hlen : t.length = cap) :
    backTable cap x 0 t = t := by
  have hcap : 0 < cap := by omega
  apply table_ext (length_backTable cap x 0 t) hlen
  intro p hp
  have hpu : cyc cap x (ringDist cap x p) = p := cyc_ringDist hx hp
  rw [← hpu]
  rw [bkt_backTable_cyc 0 t hx (ringDist_lt x p hcap)]
  rw [if_neg (by omega)]
  by_cases h0 : ringDist cap x p = 0
  · rw [if_pos h0, h0, cyc_zero hx]
  · rw [if_neg h0]

/-- One iteration of the back-shift loop turns the `k`-compacted table
into the `k+1`-compacted table. -/
theorem backTable_step {cap x : Nat} {t : List (Bucket K V)} {k : Nat}
    (hx : x < cap) (hlen : t.length = cap) (hk1 : k + 1 < cap) :
    ((swapBuckets (backTable cap x k t) (cyc cap x (k + 1))
        (PrevPos cap (cyc cap x (k + 1)))).set
      (PrevPos cap (cyc cap x (k + 1)))
      ⟨(bkt (swapBuckets (backTable cap x k t) (cyc cap x (k + 1))
          (PrevPos cap (cyc cap x (k + 1)))) (PrevPos cap (cyc cap x (k + 1)))).payload,
       (bkt (swapBuckets (backTable cap x k t) (cyc cap x (k + 1))
          (PrevPos cap (cyc cap x (k + 1)))) (PrevPos cap (cyc cap x (k + 1)))).psl - 1⟩) =
    backTable cap x (k + 1) t := by
  have hcap : 0 < cap := by omega
  have hprev : PrevPos cap (cyc cap x (k + 1)) = cyc cap x k := PrevPos_cyc x k hcap
  have hTlen : (backTable cap x k t).length = cap := length_backTable cap x k t
  have hc1 : cyc cap x (k + 1) < cap := cyc_lt x (k + 1) hcap
  have hck : cyc cap x k < cap := cyc_lt x k hcap
  have hne : cyc cap x (k + 1) ≠ cyc cap x k := by
    intro h
    have := cyc_inj hk1 (by omega) h
    omega
  have hSlen : (swapBuckets (backTable cap x k t) (cyc cap x (k + 1))
      (PrevPos cap (cyc cap x (k + 1)))).length = cap := by
    rw [length_swapBuckets, hTlen]
  have hTk1 : bkt (backTable cap x k t) (cyc cap x (k + 1)) = bkt t (cyc cap x (k + 1)) := by
    rw [bkt_backTable_cyc k t hx hk1]
    rw [if_neg (by omega), if_neg (by omega)]
  have hTkk : bkt (backTable cap x k t) (cyc cap x k) = bkt t x := by
    rw [bkt_backTable_cyc k t hx (by omega)]
    rw [if_neg (by omega), if_pos rfl]
  have hswap : ∀ p, p < cap →
      bkt (swapBuckets (backTable cap x k t) (cyc cap x (k + 1))
        (PrevPos cap (cyc cap x (k + 1)))) p =
      (if p = cyc cap x k then bkt t (cyc cap x (k + 1))
       else if p = cyc cap x (k + 1) then bkt t x
       else bkt (backTable cap x k t) p) := by
    intro p hp
    rw [hprev]
    rw [bkt_swap _ (by rw [hTlen]; exact hc1) (by rw [hTlen]; exact hck) p]
    by_cases h1 : p = cyc cap x k
    · rw [if_pos h1, if_pos h1, hTk1]
    · rw [if_neg h1, if_neg h1]
      by_cases h2 : p = cyc cap x (k + 1)
      · rw [if_pos h2, if_pos h2, hTkk]
      · rw [if_neg h2, if_neg h2]
  apply table_ext (by rw [List.length_set, hSlen]) (length_backTable cap x (k + 1) t)
  intro p hp
  have hpu : cyc cap x (ringDist cap x p) = p := cyc_ringDist hx hp
  have hud : ringDist cap x p < cap := ringDist_lt x p hcap
  by_cases hpk : p = cyc cap x k
  · -- the slot that receives the moved bucket, PSL decremented
    rw [hprev, hpk]
    rw [bkt_set_self (by rw [length_swapBuckets, hTlen]; exact hck)]
    have hsw := hswap (cyc cap x k) hck
    rw [hprev] at hsw
    rw [hsw, if_pos rfl]
    rw [bkt_backTable_cyc (k + 1) t hx (by omega : k < cap)]
    rw [if_pos (by omega)]
  · rw [hprev]
    rw [bkt_set_ne (fun h => hpk h.symm)]
    have hsw := hswap p hp
    rw [hprev] at hsw
    rw [hsw, if_neg hpk]
    by_cases hpk1 : p = cyc cap x (k + 1)
    · rw [if_pos hpk1, hpk1]
      rw [bkt_backTable_cyc (k + 1) t hx hk1]
      rw [if_neg (by omega), if_pos rfl]
    · rw [if_neg hpk1]
      rw [← hpu]
      rw [bkt_backTable_cyc k t hx hud]
      rw [bkt_backTable_cyc (k + 1) t hx hud]
      have hu0 : ringDist cap x p ≠ k := by
        intro h
        apply hpk
        rw [← hpu, h]
      have hu1 : ringDist cap x p ≠ k + 1 := by
        intro h
        apply hpk1
        rw [← hpu, h]
      by_cases hlt : ringDist cap x p < k
      · rw [if_pos hlt, if_pos (by omega)]
      · rw [if_neg hlt, if_neg hu0, if_neg (show ¬ ringDist cap x p < k + 1 by omega),
          if_neg hu1]

/-- Running the back-shift loop from the `k`-compacted table yields the
fully compacted table, where `r` is the length of the movable run
(occupied with positive PSL) just after the erased slot `x`. -/
theorem backshiftLoop_go {cap x r : Nat} {t : List (Bucket K V)}
    (hx : x < cap) (hlen : t.length = cap) (hr1 : r + 1 < cap)
    (hrun : ∀ u, 1 ≤ u → u ≤ r →
      (bkt t (cyc cap x u)).payload.isSome = true ∧ 0 < (bkt t (cyc cap x u)).psl)
    (hstop : ¬ ((bkt t (cyc cap x (r + 1))).payload.isSome = true ∧
      0 < (bkt t (cyc cap x (r + 1))).psl)) :
    ∀ fuel k, k ≤ r → r - k < fuel →
      backshiftLoop cap (backTable cap x k t) (cyc cap x (k + 1)) fuel =
        some (backTable cap x r t) := by
  have hcap : 0 < cap := by omega
  intro fuel
  induction fuel with
  | zero => intro k _ h; omega
  | succ f ih =>
    intro k hk hfk
    rw [backshiftLoop]
    have hcur : bkt (backTable cap x k t) (cyc cap x (k + 1)) = bkt t (cyc cap x (k + 1)) := by
      rw [bkt_backTable_cyc k t hx (by omega)]
      rw [if_neg (by omega), if_neg (by omega)]
    by_cases hkr : k = r
    · subst hkr
      rw [if_neg (by rw [hcur]; exact hstop)]
    · have hklt : k < r := by omega
      rw [if_pos (by rw [hcur]; exact hrun (k + 1) (by omega) (by omega))]
      dsimp only
      rw [NextPos_cyc x (k + 1) hcap]
      rw [backTable_step hx hlen (by omega)]
      exact ih (k + 1) (by omega) (by omega)

theorem countOcc_setPsl {cap : Nat} {t : List (Bucket K V)} {i : Nat}
    (hi : i < cap) (hlen : t.length = cap) (q : Nat) :
    countOcc cap (t.set i ⟨(bkt t i).payload, q⟩) = countOcc cap t := by
  have h1 := countOcc_set (t := t) hi hlen ⟨(bkt t i).payload, q⟩
  unfold occAt at h1
  simp only at h1
  omega

theorem HasPair_setPsl {cap : Nat} {t : List (Bucket K V)} {i : Nat}
    (hi : i < cap) (hlen : t.length = cap) (q : Nat) {k : K} {v : V} :
    HasPair cap (t.set i ⟨(bkt t i).payload, q⟩) k v ↔ HasPair cap t k v := by
  have hil : i < t.length := hlen ▸ hi
  constructor
  · rintro ⟨x, hx, hp⟩
    by_cases hxi : x = i
    · subst hxi
      rw [bkt_set_self hil] at hp
      exact ⟨x, hx, hp⟩
    · rw [bkt_set_ne (fun h => hxi h.symm)] at hp
      exact ⟨x, hx, hp⟩
  · rintro ⟨x, hx, hp⟩
    refine ⟨x, hx, ?_⟩
    by_cases hxi : x = i
    · subst hxi
      rw [bkt_set_self hil]
      exact hp
    · rw [bkt_set_ne (fun h => hxi h.symm)]
      exact hp

theorem countOcc_backTable {cap x : Nat} {t : List (Bucket K V)}
    (hx : x < cap) (hlen : t.length = cap) :
    ∀ r, r < cap → countOcc cap (backTable cap x r t) = countOcc cap t := by
  intro r
  induction r with
  | zero => intro _; rw [backTable_zero hx hlen]
  | succ r ih =>
    intro hr1
    have hcap : 0 < cap := by omega
    have hprev : PrevPos cap (cyc cap x (r + 1)) = cyc cap x r := PrevPos_cyc x r hcap
    have hswlen : (swapBuckets (backTable cap x r t) (cyc cap x (r + 1))
        (PrevPos cap (cyc cap x (r + 1)))).length = cap := by
      rw [length_swapBuckets, length_backTable]
    rw [← backTable_step hx hlen hr1]
    rw [countOcc_setPsl (by rw [hprev]; exact cyc_lt x r hcap) hswlen]
    rw [hprev]
    rw [countOcc_swapBuckets (cyc_lt x (r + 1) hcap) (cyc_lt x r hcap)
      (length_backTable cap x r t)]
    exact ih (by omega)

theorem HasPair_backTable {cap x : Nat} {t : List (Bucket K V)}
    (hx : x < cap) (hlen : t.length = cap) {k : K} {v : V} :
    ∀ r, r < cap → (HasPair cap (backTable cap x r t) k v ↔ HasPair cap t k v) := by
  intro r
  induction r with
  | zero => intro _; rw [backTable_zero hx hlen]
  | succ r ih =>
    intro hr1
    have hcap : 0 < cap := by omega
    have hprev : PrevPos cap (cyc cap x (r + 1)) = cyc cap x r := PrevPos_cyc x r hcap
    have hswlen : (swapBuckets (backTable cap x r t) (cyc cap x (r + 1))
        (PrevPos cap (cyc cap x (r + 1)))).length = cap := by
      rw [length_swapBuckets, length_backTable]
    rw [← backTable_step hx hlen hr1]
    rw [HasPair_setPsl (by rw [hprev]; exact cyc_lt x r hcap) hswlen]
    rw [hprev]
    rw [HasPair_swapBuckets (cyc_lt x (r + 1) hcap) (cyc_lt x r hcap)
      (length_backTable cap x r t)]
    exact ih (by omega)

/-- Any run of `n` consecutive occupied slots forces `n ≤ countOcc`. -/
theorem run_le_countOcc {cap : Nat} {t : List (Bucket K V)} {start n : Nat}
    (hcap : 0 < cap) (hn : n ≤ cap)
    (hocc : ∀ u, u < n → (bkt t (cyc cap start u)).payload.isSome = true) :
    n ≤ countOcc cap t := by
  have hLsub : ((List.range n).map (cyc cap start)) ⊆
      (List.range cap).filter (occAt t) := by
    intro x hx
    obtain ⟨u, hu, hux⟩ := List.mem_map.mp hx
    have hu' : u < n := List.mem_range.mp hu
    refine List.mem_filter.mpr ⟨List.mem_range.mpr (by rw [← hux]; exact cyc_lt start u hcap), ?_⟩
    rw [← hux]
    exact hocc u hu'
  have hnodup : ((List.range n).map (cyc cap start)).Nodup := by
    refine (List.nodup_range n).map_on ?_
    intro a ha b hb hab
    exact cyc_inj (by have := List.mem_range.mp ha; omega)
      (by have := List.mem_range.mp hb; omega) hab
  have hlen := (List.subperm_of_subset hnodup hLsub).length_le
  rw [List.length_map, List.length_range] at hlen
  unfold countOcc
  omega

/-- In a table with at least two free slots, the back-shift loop started
just after `x` has a stop offset within the ring. -/
theorem exists_firstStop {cap : Nat} {t : List (Bucket K V)} {x : Nat}
    (hx : x < cap) (hcount : countOcc cap t + 2 ≤ cap) :
    ∃ r, r + 1 < cap ∧
      ¬ ((bkt t (cyc cap x (r + 1))).payload.isSome = true ∧
        0 < (bkt t (cyc cap x (r + 1))).psl) ∧
      ∀ u, 1 ≤ u → u ≤ r →
        (bkt t (cyc cap x u)).payload.isSome = true ∧ 0 < (bkt t (cyc cap x u)).psl := by
  have hcap : 0 < cap := by omega
  have hex : ∃ u, u ≤ cap - 2 ∧
      ¬ ((bkt t (cyc cap x (u + 1))).payload.isSome = true ∧
        0 < (bkt t (cyc cap x (u + 1))).psl) := by
    by_contra hno
    push_neg at hno
    have hrun : ∀ u, u < cap - 1 →
        (bkt t (cyc cap (cyc cap x 1) u)).payload.isSome = true := by
      intro u hu
      have := (hno u (by omega)).1
      rw [cyc_add]
      rw [show 1 + u = u + 1 from by omega]
      exact this
    have := run_le_countOcc hcap (by omega) hrun
    omega
  classical
  obtain ⟨u0, hu0, hP0⟩ := hex
  let P : Nat → Prop := fun u =>
    ¬ ((bkt t (cyc cap x (u + 1))).payload.isSome = true ∧
      0 < (bkt t (cyc cap x (u + 1))).psl)
  have hPex : ∃ u, P u := ⟨u0, hP0⟩
  refine ⟨Nat.find hPex, ?_, ?_, ?_⟩
  · have := Nat.find_min' hPex hP0
    omega
  · exact Nat.find_spec hPex
  · intro u h1 h2
    have := Nat.find_min hPex (m := u - 1) (by omega)
    have h3 : ¬ P (u - 1) := this
    unfold_let P at h3
    rw [not_not] at h3
    rw [show u - 1 + 1 = u from by omega] at h3
    exact h3

theorem cyc_cap {cap x : Nat} (hx : x < cap) : cyc cap x cap = x := by
  unfold cyc
  rw [Nat.add_mod_right]
  exact Nat.mod_eq_of_lt hx

theorem PrevPos_self {cap x : Nat} (hx : x < cap) :
    PrevPos cap x = cyc cap x (cap - 1) := by
  have hcap : 0 < cap := by omega
  have h1 : cyc cap x (cap - 1 + 1) = x := by
    rw [show cap - 1 + 1 = cap from by omega]
    exact cyc_cap hx
  conv_lhs => rw [← h1]
  exact PrevPos_cyc x (cap - 1) hcap

/-- The erase back-shift preserves the table invariant: marking slot `x`
deleted and compacting the movable run of length `r` that follows yields
a valid Robin-Hood table. -/
theorem TblOk_eraseResult {hash : K → Nat} {cap : Nat} {t : List (Bucket K V)}
    {x r : Nat} {kv0 : K × V}
    (hT : TblOk hash cap t) (hx : x < cap)
    (hpx : (bkt t x).payload = some kv0) (hr1 : r + 1 < cap)
    (hrun : ∀ u, 1 ≤ u → u ≤ r →
      (bkt t (cyc cap x u)).payload.isSome = true ∧ 0 < (bkt t (cyc cap x u)).psl)
    (hstop : ¬ ((bkt t (cyc cap x (r + 1))).payload.isSome = true ∧
      0 < (bkt t (cyc cap x (r + 1))).psl)) :
    TblOk hash cap (backTable cap x r (t.set x ⟨none, (bkt t x).psl⟩)) := by
  obtain ⟨hlen, hslots, huniq⟩ := hT
  have hcap : 0 < cap := by omega
  have hxl : x < t.length := hlen ▸ hx
  set d := (bkt t x).psl with hd
  set T := backTable cap x r (t.set x ⟨none, d⟩) with hTdef
  have hb1x : bkt (t.set x (⟨none, d⟩ : Bucket K V)) x = ⟨none, d⟩ :=
    bkt_set_self hxl _
  have hb1 : ∀ u, 1 ≤ u → u < cap →
      bkt (t.set x (⟨none, d⟩ : Bucket K V)) (cyc cap x u) = bkt t (cyc cap x u) := by
    intro u h1 hu
    apply bkt_set_ne
    intro h
    have h0 : cyc cap x 0 = cyc cap x u := by rw [cyc_zero hx]; exact h
    have := cyc_inj hcap hu h0
    omega
  have hTlt : ∀ u, u < r → bkt T (cyc cap x u) =
      ⟨(bkt t (cyc cap x (u + 1))).payload, (bkt t (cyc cap x (u + 1))).psl - 1⟩ := by
    intro u hu
    rw [hTdef, bkt_backTable_cyc r _ hx (by omega), if_pos hu]
    rw [hb1 (u + 1) (by omega) (by omega)]
  have hTr : bkt T (cyc cap x r) = ⟨none, d⟩ := by
    rw [hTdef, bkt_backTable_cyc r _ hx (by omega), if_neg (by omega), if_pos rfl, hb1x]
  have hTgt : ∀ u, r < u → u < cap → bkt T (cyc cap x u) = bkt t (cyc cap x u) := by
    intro u hru hu
    rw [hTdef, bkt_backTable_cyc r _ hx hu, if_neg (by omega), if_neg (by omega)]
    exact hb1 u (by omega) hu
  have hq1d : ∀ u, 1 ≤ u → u ≤ r → (bkt t (cyc cap x u)).psl ≤
      (bkt t (cyc cap x (u - 1))).psl + 1 ∨ (u = 1 ∧ (bkt t (cyc cap x u)).psl ≤ d + 1) := by
    intro u h1 hu
    have hocc := hrun u h1 hu
    obtain ⟨kvu, hkvu⟩ := Option.isSome_iff_exists.mp hocc.1
    have hro := (hslots (cyc cap x u) (cyc_lt x u hcap)).2 kvu
      (by rw [hkvu]; rfl) hocc.2
    have hprev : PrevPos cap (cyc cap x u) = cyc cap x (u - 1) := by
      have h2 := PrevPos_cyc x (u - 1) hcap
      rwa [show u - 1 + 1 = u from by omega] at h2
    rw [hprev] at hro
    by_cases hu1 : u = 1
    · right
      refine ⟨hu1, ?_⟩
      have : (bkt t (cyc cap x (u - 1))).psl = d := by
        rw [hu1]
        rw [show (1 : Nat) - 1 = 0 from rfl, cyc_zero hx, hd]
      omega
    · left
      exact hro.2
  refine ⟨by rw [hTdef]; exact length_backTable cap x r _, ?_, ?_⟩
  · intro i hi
    have hiu : cyc cap x (ringDist cap x i) = i := cyc_ringDist hx hi
    have hud : ringDist cap x i < cap := ringDist_lt x i hcap
    set u := ringDist cap x i with hu_def
    rcases Nat.lt_trichotomy u r with hlt | heq | hgt
    · -- slot that received a moved bucket with decremented PSL
      have hq1 : 0 < (bkt t (cyc cap x (u + 1))).psl :=
        (hrun (u + 1) (by omega) (by omega)).2
      constructor
      · intro kv hkv
        rw [← hiu, hTlt _ hlt] at hkv ⊢
        have hkv' : kv ∈ (bkt t (cyc cap x (u + 1))).payload := hkv
        obtain ⟨hpos_eq, hpsl_lt⟩ :=
          (hslots (cyc cap x (u + 1)) (cyc_lt x (u + 1) hcap)).1 kv hkv'
        constructor
        · show cyc cap x u = cyc cap (hash kv.1 % cap) ((bkt t (cyc cap x (u + 1))).psl - 1)
          have h2 : cyc cap x (u + 1) =
              cyc cap (hash kv.1 % cap) ((bkt t (cyc cap x (u + 1))).psl - 1 + 1) := by
            rw [show (bkt t (cyc cap x (u + 1))).psl - 1 + 1 =
              (bkt t (cyc cap x (u + 1))).psl from by omega]
            exact hpos_eq
          have h3 := congrArg (PrevPos cap) h2
          rw [PrevPos_cyc x u hcap,
            PrevPos_cyc (hash kv.1 % cap) ((bkt t (cyc cap x (u + 1))).psl - 1) hcap] at h3
          exact h3
        · show (bkt t (cyc cap x (u + 1))).psl - 1 < cap
          omega
      · rw [← hiu]
        intro kv hkv hpos
        rw [hTlt _ hlt] at hkv hpos
        have hpos' : 0 < (bkt t (cyc cap x (u + 1))).psl - 1 := hpos
        rcases Nat.eq_zero_or_pos u with hu0 | hu0
        · -- front of the run: predecessor is the slot before the erased one
          have hd1 : (bkt t (cyc cap x (u + 1))).psl ≤ d + 1 := by
            rcases hq1d (u + 1) (by omega) (by omega) with h | h
            · rw [show u + 1 - 1 = u from by omega] at h
              have hval : (bkt t (cyc cap x u)).psl = d := by
                rw [hu0, cyc_zero hx]
              omega
            · exact h.2
          have hdpos : 0 < d := by omega
          have hro := (hslots x hx).2 kv0 (by rw [hpx]; rfl) hdpos
          have hpredT : bkt T (PrevPos cap x) = bkt t (PrevPos cap x) := by
            rw [PrevPos_self hx]
            exact hTgt (cap - 1) (by omega) (by omega)
          have hprevx : PrevPos cap (cyc cap x u) = PrevPos cap x := by
            rw [hu0, cyc_zero hx]
          rw [hprevx, hpredT, hTlt _ hlt]
          refine ⟨hro.1, ?_⟩
          show (bkt t (cyc cap x (u + 1))).psl - 1 ≤ (bkt t (PrevPos cap x)).psl + 1
          have hro2 : d ≤ (bkt t (PrevPos cap x)).psl + 1 := hro.2
          omega
        · -- interior of the run: predecessor also moved back
          have hprev : PrevPos cap (cyc cap x u) = cyc cap x (u - 1) := by
            have h2 := PrevPos_cyc x (u - 1) hcap
            rwa [show u - 1 + 1 = u from by omega] at h2
          rw [hprev, hTlt (u - 1) (by omega), hTlt _ hlt]
          rw [show u - 1 + 1 = u from by omega]
          have hoccu := hrun u (by omega) (by omega)
          refine ⟨hoccu.1, ?_⟩
          show (bkt t (cyc cap x (u + 1))).psl - 1 ≤ (bkt t (cyc cap x u)).psl - 1 + 1
          have hrel : (bkt t (cyc cap x (u + 1))).psl ≤ (bkt t (cyc cap x u)).psl + 1 := by
            rcases hq1d (u + 1) (by omega) (by omega) with h | h
            · rwa [show u + 1 - 1 = u from by omega] at h
            · omega
          omega
    · -- the slot where the deletion marker ends up: empty, nothing to show
      constructor
      · intro kv hkv
        rw [← hiu, heq, hTr] at hkv
        exact absurd hkv (by simp)
      · rw [← hiu]
        intro kv hkv
        rw [heq, hTr] at hkv
        exact absurd hkv (by simp)
    · -- slots beyond the run are untouched
      constructor
      · intro kv hkv
        rw [← hiu, hTgt _ hgt hud] at hkv ⊢
        exact (hslots (cyc cap x u) (cyc_lt x u hcap)).1 kv hkv
      · rw [← hiu]
        intro kv hkv hpos
        rw [hTgt _ hgt hud] at hkv hpos
        rcases Nat.eq_or_lt_of_le (show r + 1 ≤ u from hgt) with heqr | hgtr
        · exfalso
          apply hstop
          rw [heqr]
          have hmem : (bkt t (cyc cap x u)).payload = some kv := hkv
          exact ⟨by rw [hmem]; rfl, hpos⟩
        · have hprev : PrevPos cap (cyc cap x u) = cyc cap x (u - 1) := by
            have h2 := PrevPos_cyc x (u - 1) hcap
            rwa [show u - 1 + 1 = u from by omega] at h2
          have hro := (hslots (cyc cap x u) (cyc_lt x u hcap)).2 kv hkv hpos
          rw [hprev] at hro
          rw [hprev, hTgt (u - 1) (by omega) (by omega), hTgt _ hgt hud]
          exact hro
  · -- key uniqueness: map each occupied result slot to its source slot
    have hsrc : ∀ p, p < cap → ∀ kv, kv ∈ (bkt T p).payload →
        ∃ q, q < cap ∧ kv ∈ (bkt t (cyc cap x q)).payload ∧
          ((ringDist cap x p < r ∧ q = ringDist cap x p + 1) ∨
           (r < ringDist cap x p ∧ q = ringDist cap x p)) := by
      intro p hp kv hkv
      have hpu : cyc cap x (ringDist cap x p) = p := cyc_ringDist hx hp
      have hpd : ringDist cap x p < cap := ringDist_lt x p hcap
      rcases Nat.lt_trichotomy (ringDist cap x p) r with hlt | heq | hgt
      · rw [← hpu, hTlt _ hlt] at hkv
        exact ⟨ringDist cap x p + 1, by omega, hkv, Or.inl ⟨hlt, rfl⟩⟩
      · rw [← hpu, heq, hTr] at hkv
        exact absurd hkv (by simp)
      · rw [← hpu, hTgt _ hgt hpd] at hkv
        exact ⟨ringDist cap x p, hpd, hkv, Or.inr ⟨hgt, rfl⟩⟩
    intro i hi j hj kvi hkvi kvj hkvj hkey
    obtain ⟨qi, hqi, hkvi', hci⟩ := hsrc i hi kvi hkvi
    obtain ⟨qj, hqj, hkvj', hcj⟩ := hsrc j hj kvj hkvj
    have heqc : cyc cap x qi = cyc cap x qj :=
      huniq (cyc cap x qi) (cyc_lt x qi hcap) (cyc cap x qj) (cyc_lt x qj hcap)
        kvi hkvi' kvj hkvj' hkey
    have heqq : qi = qj := cyc_inj hqi hqj heqc
    have hueq : ringDist cap x i = ringDist cap x j := by
      rcases hci with ⟨h1, h2⟩ | ⟨h1, h2⟩ <;> rcases hcj with ⟨h3, h4⟩ | ⟨h3, h4⟩ <;> omega
    have h5 : cyc cap x (ringDist cap x i) = i := cyc_ringDist hx hi
    have h6 : cyc cap x (ringDist cap x j) = j := cyc_ringDist hx hj
    rw [← h5, ← h6, hueq]

theorem HasPair_set_none {cap : Nat} {t : List (Bucket K V)} {x d : Nat}
    (hlen : t.length = cap) (hx : x < cap) {k : K} {v : V} :
    HasPair cap (t.set x ⟨none, d⟩) k v ↔
      ∃ i, i < cap ∧ i ≠ x ∧ (bkt t i).payload = some (k, v) := by
  constructor
  · rintro ⟨i, hi, hp⟩
    by_cases hix : i = x
    · subst hix
      rw [bkt_set_self (hlen ▸ hi)] at hp
      cases hp
    · rw [bkt_set_ne (fun h => hix h.symm)] at hp
      exact ⟨i, hi, hix, hp⟩
  · rintro ⟨i, hi, hix, hp⟩
    refine ⟨i, hi, ?_⟩
    rw [bkt_set_ne (fun h => hix h.symm)]
    exact hp

/-- `SubTable::erase` on a present key: returns `true`, decrements `size`,
removes exactly that key from the contents, keeps the capacity, and
preserves the full invariant. -/
theorem erase_spec_present {hash : K → Nat} {s : SubTable K V} {key : K}
    (hInv : Inv hash s) (hk : HasKey s.capacity s.table key) :
    ∃ s', s.erase hash key = some (true, s') ∧ Inv hash s' ∧
      s'.size + 1 = s.size ∧ s'.capacity = s.capacity ∧
      (∀ k v, HasPair s.capacity s'.table k v ↔
        (HasPair s.capacity s.table k v ∧ k ≠ key)) := by
  obtain ⟨hT, hsz, hload, m, hm⟩ := hInv
  have hcap : 0 < s.capacity := by rw [hm]; positivity
  obtain ⟨v0, hpair⟩ := hasKey_iff_pair.mp hk
  obtain ⟨x, hfind, hpx⟩ := find_complete hT hcap hpair
  have hx : x < s.capacity := (find_sound hcap hfind).1
  have hocc1 : ∀ u, u < 1 → (bkt s.table (cyc s.capacity x u)).payload.isSome = true := by
    intro u hu
    have hu0 : u = 0 := by omega
    rw [hu0, cyc_zero hx, hpx]
    rfl
  have hN1 : 1 ≤ countOcc s.capacity s.table := run_le_countOcc hcap (by omega) hocc1
  have hcount : countOcc s.capacity s.table < s.capacity := by omega
  have ht1len : (s.table.set x (⟨none, (bkt s.table x).psl⟩ : Bucket K V)).length =
      s.capacity := by
    rw [List.length_set]
    exact hT.1
  have hoccx : occAt s.table x = true := by
    unfold occAt
    rw [hpx]
    rfl
  have hcnt1 : countOcc s.capacity (s.table.set x ⟨none, (bkt s.table x).psl⟩) + 1 =
      countOcc s.capacity s.table := by
    have h1 := countOcc_set hx hT.1 (⟨none, (bkt s.table x).psl⟩ : Bucket K V)
    rw [if_pos hoccx, if_neg (by simp)] at h1
    omega
  have hcnt1' : countOcc s.capacity (s.table.set x ⟨none, (bkt s.table x).psl⟩) + 2 ≤
      s.capacity := by omega
  obtain ⟨r, hr1, hstop1, hrun1⟩ := exists_firstStop hx hcnt1'
  have hb1 : ∀ u, 1 ≤ u → u < s.capacity →
      bkt (s.table.set x (⟨none, (bkt s.table x).psl⟩ : Bucket K V)) (cyc s.capacity x u) =
        bkt s.table (cyc s.capacity x u) := by
    intro u h1 hu
    apply bkt_set_ne
    intro h
    have h0 : cyc s.capacity x 0 = cyc s.capacity x u := by rw [cyc_zero hx]; exact h
    have := cyc_inj hcap hu h0
    omega
  have hrun : ∀ u, 1 ≤ u → u ≤ r →
      (bkt s.table (cyc s.capacity x u)).payload.isSome = true ∧
      0 < (bkt s.table (cyc s.capacity x u)).psl := by
    intro u h1 h2
    have h3 := hrun1 u h1 h2
    rwa [hb1 u h1 (by omega)] at h3
  have hstop : ¬ ((bkt s.table (cyc s.capacity x (r + 1))).payload.isSome = true ∧
      0 < (bkt s.table (cyc s.capacity x (r + 1))).psl) := by
    rw [← hb1 (r + 1) (by omega) hr1]
    exact hstop1
  have hTok := TblOk_eraseResult hT hx hpx hr1 hrun hstop
  have hloop := backshiftLoop_go hx ht1len hr1 hrun1 hstop1 s.capacity 0 (by omega)
    (by omega)
  rw [backTable_zero hx ht1len] at hloop
  have hnext : NextPos s.capacity x = cyc s.capacity x (0 + 1) := by
    have h7 := NextPos_cyc x 0 hcap
    rwa [cyc_zero hx] at h7
  have hcntT : countOcc s.capacity
      (backTable s.capacity x r (s.table.set x ⟨none, (bkt s.table x).psl⟩)) + 1 =
      countOcc s.capacity s.table := by
    rw [countOcc_backTable hx ht1len r (by omega)]
    exact hcnt1
  refine ⟨{ s with
      table := backTable s.capacity x r (s.table.set x ⟨none, (bkt s.table x).psl⟩),
      size := s.size - 1 }, ?_, ?_, ?_, rfl, ?_⟩
  · unfold SubTable.erase
    unfold SubTable.find at hfind
    rw [hfind]
    simp only [Option.bind_eq_bind, Option.some_bind]
    rw [hnext, hloop]
    simp only [Option.some_bind]
    rfl
  · refine ⟨hTok, ?_, ?_, ⟨m, hm⟩⟩
    · show s.size - 1 = countOcc s.capacity
        (backTable s.capacity x r (s.table.set x ⟨none, (bkt s.table x).psl⟩))
      omega
    · show 2 * (s.size - 1) ≤ s.capacity
      omega
  · show s.size - 1 + 1 = s.size
    omega
  · intro k v
    show HasPair s.capacity
      (backTable s.capacity x r (s.table.set x ⟨none, (bkt s.table x).psl⟩)) k v ↔ _
    rw [HasPair_backTable hx ht1len r (by omega)]
    rw [HasPair_set_none hT.1 hx]
    constructor
    · rintro ⟨i, hi, hix, hp⟩
      refine ⟨⟨i, hi, hp⟩, ?_⟩
      intro hkey
      apply hix
      exact hT.2.2 i hi x hx (k, v) (by rw [hp]; rfl) (key, v0) (by rw [hpx]; rfl) hkey
    · rintro ⟨⟨i, hi, hp⟩, hne⟩
      refine ⟨i, hi, ?_, hp⟩
      intro hix
      apply hne
      rw [hix] at hp
      rw [hp] at hpx
      exact (Prod.mk.injEq _ _ _ _ ▸ (Option.some.injEq _ _ ▸ hpx)).1

/-- `SubTable::erase` on an absent key: returns `false` and the state is
bitwise unchanged. -/
theorem erase_spec_absent {hash : K → Nat} {s : SubTable K V} {key : K}
    (hInv : Inv hash s) (hnk : ¬ HasKey s.capacity s.table key) :
    s.erase hash key = some (false, s) := by
  have hfind : s.find hash key = some none :=
    (find_none_iff hInv.1 hInv.countOcc_lt hInv.cap_pos).mpr hnk
  unfold SubTable.find at hfind
  unfold SubTable.erase
  rw [hfind]
  rfl

/-! ## Invariant preservation across the public subtable interface -/

theorem Inv_init {hash : K → Nat} : Inv hash (initSubTable : SubTable K V) := by
  refine ⟨TblOk_replicate 8, ?_, ?_, ⟨0, rfl⟩⟩
  · show (0 : Nat) = countOcc 8 (List.replicate 8 emptyBucket)
    rw [countOcc_replicate]
  · show 2 * 0 ≤ 8
    omega

theorem Inv_clear {hash : K → Nat} (s : SubTable K V) : Inv hash s.clear := by
  refine ⟨TblOk_replicate 8, ?_, ?_, ⟨0, rfl⟩⟩
  · show (0 : Nat) = countOcc 8 (List.replicate 8 emptyBucket)
    rw [countOcc_replicate]
  · show 2 * 0 ≤ 8
    omega

theorem insert_Inv {hash : K → Nat} {s s' : SubTable K V} {e : K × V} {b : Bool}
    (hInv : Inv hash s) (h : s.insert hash e = some (b, s')) : Inv hash s' := by
  by_cases hk : HasKey s.capacity s.table e.1
  · rw [insert_spec_present hInv hk] at h
    cases h
    exact hInv
  · obtain ⟨s1, h1, h2, _⟩ := insert_spec_absent hInv hk
    rw [h1] at h
    cases h
    exact h2

theorem erase_Inv {hash : K → Nat} {s s' : SubTable K V} {key : K} {b : Bool}
    (hInv : Inv hash s) (h : s.erase hash key = some (b, s')) : Inv hash s' := by
  by_cases hk : HasKey s.capacity s.table key
  · obtain ⟨s1, h1, h2, _⟩ := erase_spec_present hInv hk
    rw [h1] at h
    cases h
    exact h2
  · rw [erase_spec_absent hInv hk] at h
    cases h
    exact hInv

/-- Every public mutating operation preserves the subtable invariant. -/
theorem step_Inv {hash : K → Nat} {s s' : SubTable K V} {op : SubOp K V}
    (hInv : Inv hash s) (h : s.step hash op = some s') : Inv hash s' := by
  cases op with
  | ins e =>
    simp only [SubTable.step] at h
    rcases hi : s.insert hash e with _ | ⟨b, s1⟩
    · rw [hi] at h; cases h
    · rw [hi] at h
      cases h
      exact insert_Inv hInv hi
  | del k =>
    simp only [SubTable.step] at h
    rcases hi : s.erase hash k with _ | ⟨b, s1⟩
    · rw [hi] at h; cases h
    · rw [hi] at h
      cases h
      exact erase_Inv hInv hi
  | idx k v0 =>
    simp only [SubTable.step, SubTable.index] at h
    rcases hi : s.insert hash (k, v0) with _ | ⟨b, s1⟩
    · rw [hi] at h; cases h
    · rw [hi] at h
      cases h
      exact insert_Inv hInv hi
  | clr =>
    simp only [SubTable.step] at h
    cases h
    exact Inv_clear s

/-- The invariant holds in every state reachable by public operations. -/
theorem runSub_Inv {hash : K → Nat} :
    ∀ (ops : List (SubOp K V)) (s s' : SubTable K V),
      Inv hash s → runSub hash ops s = some s' → Inv hash s' := by
  intro ops
  induction ops with
  | nil =>
    intro s s' hInv h
    cases h
    exact hInv
  | cons op rest ih =>
    intro s s' hInv h
    unfold runSub at h
    rcases hs : s.step hash op with _ | s1
    · rw [hs] at h; cases h
    · rw [hs] at h
      exact ih s1 s' (step_Inv hInv hs) h

/-- Every state reachable from a fresh subtable satisfies the invariant. -/
theorem runSub_Inv_init {hash : K → Nat} {ops : List (SubOp K V)} {s : SubTable K V}
    (h : runSub hash ops initSubTable = some s) : Inv hash s :=
  runSub_Inv ops initSubTable s Inv_init h

/-- `SubTable::at` on a present key returns exactly the stored value. -/
theorem at_spec_present {hash : K → Nat} {s : SubTable K V} {key : K} {v : V}
    (hInv : Inv hash s) (hpair : HasPair s.capacity s.table key v) :
    s.at' hash key = some (some v) := by
  obtain ⟨i, hfind, hpx⟩ := find_complete hInv.1 hInv.cap_pos hpair
  unfold SubTable.at'
  rw [hfind]
  simp only [Option.bind_eq_bind, Option.some_bind]
  rw [hpx]
  rfl

/-- `SubTable::at` on an absent key raises the missing-key failure
(modelled as the inner `none`). -/
theorem at_spec_absent {hash : K → Nat} {s : SubTable K V} {key : K}
    (hInv : Inv hash s) (hnk : ¬ HasKey s.capacity s.table key) :
    s.at' hash key = some none := by
  have hfind : s.find hash key = some none :=
    (find_none_iff hInv.1 hInv.countOcc_lt hInv.cap_pos).mpr hnk
  unfold SubTable.at'
  rw [hfind]
  rfl

/-! ## Map-level invariant and specifications (value model) -/

theorem route_eq_mod (hash : K → Nat) (key : K) :
    route hash key = hash key % SubtableSize := by
  have h := Nat.and_pow_two_sub_one_eq_mod (hash key) 3
  unfold route SubtableSize
  norm_num at h ⊢
  exact h

theorem route_lt (hash : K → Nat) (key : K) : route hash key < SubtableSize := by
  rw [route_eq_mod]
  exact Nat.mod_lt _ (by unfold SubtableSize; omega)

theorem getD_set_self {α : Type} {l : List α} {i : Nat} (h : i < l.length)
    (a d : α) : (l.set i a).getD i d = a := by
  simp [List.getD, List.getElem?_set, h]

theorem getD_set_ne {α : Type} {l : List α} {i j : Nat} (h : i ≠ j)
    (a d : α) : (l.set i a).getD j d = l.getD j d := by
  simp [List.getD, List.getElem?_set, h]

theorem list_set_getD {α : Type} {l : List α} {i : Nat} (hi : i < l.length)
    (d : α) : l.set i (l.getD i d) = l := by
  apply List.ext_getElem (by simp)
  intro n h1 h2
  rw [List.getElem_set]
  split
  · next h => subst h; exact (List.getD_eq_getElem l d hi).symm ▸ rfl
  · rfl

theorem sum_map_update {l : List Nat} (hl : l.Nodup) {i : Nat} (hi : i ∈ l)
    (f g : Nat → Nat) (hfg : ∀ j ∈ l, j ≠ i → f j = g j) :
    (l.map f).sum + g i = (l.map g).sum + f i := by
  induction l with
  | nil => cases hi
  | cons a rest ih =>
    rcases List.mem_cons.mp hi with heq | hrest
    · subst heq
      have hsame : rest.map f = rest.map g := by
        apply List.map_congr_left
        intro j hj
        exact hfg j (List.mem_cons_of_mem i hj)
          (fun hji => (List.nodup_cons.mp hl).1 (hji ▸ hj))
      simp only [List.map_cons, List.sum_cons, hsame]
      omega
    · have hfa : f a = g a :=
        hfg a (List.mem_cons_self a rest) (fun hai => (List.nodup_cons.mp hl).1 (hai ▸ hrest))
      have := ih (List.nodup_cons.mp hl).2 hrest
        (fun j hj hji => hfg j (List.mem_cons_of_mem a hj) hji)
      simp only [List.map_cons, List.sum_cons, hfa]
      omega

/-- Sum of the sizes of the eight subtables. -/
def HashMap.sumSizes (m : HashMap K V) : Nat :=
  ((List.range SubtableSize).map (fun i => (m.sub i).size)).sum

/-- Key `k` is stored somewhere in the directory. -/
def HasKeyM (m : HashMap K V) (k : K) : Prop :=
  ∃ i, i < SubtableSize ∧ HasKey (m.sub i).capacity (m.sub i).table k

/-- Pair `(k, v)` is stored somewhere in the directory. -/
def HasPairM (m : HashMap K V) (k : K) (v : V) : Prop :=
  ∃ i, i < SubtableSize ∧ HasPair (m.sub i).capacity (m.sub i).table k v

/-- Full invariant of a `HashMap`: eight subtables, each internally
valid; every stored key lives in the subtable its hash routes to; the
aggregate size is the sum of the subtable sizes. -/
def MapInv (hash : K → Nat) (m : HashMap K V) : Prop :=
  m.subtables.length = SubtableSize ∧
  (∀ i, i < SubtableSize → Inv hash (m.sub i)) ∧
  (∀ i, i < SubtableSize → ∀ k, HasKey (m.sub i).capacity (m.sub i).table k →
    route hash k = i) ∧
  m.size = m.sumSizes

theorem sub_init {K V : Type} (i : Nat) :
    (initHashMap : HashMap K V).sub i = initSubTable := by
  unfold initHashMap HashMap.sub
  rcases Nat.lt_or_ge i SubtableSize with h | h
  · simp [List.getD, List.getElem?_replicate, h]
  · have : SubtableSize ≤ i := h
    simp [List.getD, List.getElem?_eq_none,
      (by simpa using this : (List.replicate SubtableSize
        (initSubTable : SubTable K V)).length ≤ i)]

theorem not_HasKey_init {K V : Type} [DecidableEq K] [DecidableEq V] (k : K) :
    ¬ HasKey (initSubTable : SubTable K V).capacity
      (initSubTable : SubTable K V).table k := by
  intro h
  obtain ⟨v, hp⟩ := hasKey_iff_pair.mp h
  exact not_HasPair_replicate 8 k v hp

theorem MapInv_init {hash : K → Nat} : MapInv hash (initHashMap : HashMap K V) := by
  refine ⟨by simp [initHashMap], ?_, ?_, ?_⟩
  · intro i _
    rw [sub_init]
    exact Inv_init
  · intro i _ k hk
    rw [sub_init] at hk
    exact absurd hk (not_HasKey_init k)
  · show (0 : Nat) = HashMap.sumSizes initHashMap
    have : ∀ i, ((initHashMap : HashMap K V).sub i).size = 0 := by
      intro i
      rw [sub_init]
      rfl
    unfold HashMap.sumSizes
    simp [this]

theorem hasKeyM_iff {hash : K → Nat} {m : HashMap K V} (hM : MapInv hash m)
    (k : K) : HasKeyM m k ↔
      HasKey (m.sub (route hash k)).capacity (m.sub (route hash k)).table k := by
  constructor
  · rintro ⟨i, hi, hk⟩
    rw [hM.2.2.1 i hi k hk]
    exact hk
  · intro hk
    exact ⟨route hash k, route_lt hash k, hk⟩

theorem hasPairM_iff {hash : K → Nat} {m : HashMap K V} (hM : MapInv hash m)
    (k : K) (v : V) : HasPairM m k v ↔
      HasPair (m.sub (route hash k)).capacity (m.sub (route hash k)).table k v := by
  constructor
  · rintro ⟨i, hi, hp⟩
    have hk : HasKey (m.sub i).capacity (m.sub i).table k :=
      hasKey_iff_pair.mpr ⟨v, hp⟩
    rw [hM.2.2.1 i hi k hk]
    exact hp
  · intro hp
    exact ⟨route hash k, route_lt hash k, hp⟩

theorem sub_mk_set_self {m : HashMap K V} (hlen : m.subtables.length = SubtableSize)
    {h : Nat} (hh : h < SubtableSize) (sz : Nat) (s' : SubTable K V) :
    (HashMap.mk sz (m.subtables.set h s')).sub h = s' := by
  unfold HashMap.sub
  exact getD_set_self (by rw [hlen]; exact hh) s' initSubTable

theorem sub_mk_set_ne {m : HashMap K V} {h i : Nat} (hne : h ≠ i)
    (sz : Nat) (s' : SubTable K V) :
    (HashMap.mk sz (m.subtables.set h s')).sub i = m.sub i := by
  unfold HashMap.sub
  exact getD_set_ne hne s' initSubTable

theorem sumSizes_mk_set {m : HashMap K V} (hlen : m.subtables.length = SubtableSize)
    {h : Nat} (hh : h < SubtableSize) (sz : Nat) (s' : SubTable K V) :
    (HashMap.mk sz (m.subtables.set h s')).sumSizes + (m.sub h).size =
      m.sumSizes + s'.size := by
  have key := sum_map_update (List.nodup_range _) (List.mem_range.mpr hh)
    (fun i => ((HashMap.mk sz (m.subtables.set h s')).sub i).size)
    (fun i => ((m : HashMap K V).sub i).size)
    (fun j _ hj => by
      show ((HashMap.mk sz (m.subtables.set h s')).sub j).size = ((m.sub j)).size
      rw [sub_mk_set_ne (fun hhj => hj hhj.symm)])
  unfold HashMap.sumSizes
  have key2 : (List.map (fun i => ((HashMap.mk sz (m.subtables.set h s')).sub i).size)
        (List.range SubtableSize)).sum + (m.sub h).size =
      (List.map (fun i => ((m : HashMap K V).sub i).size) (List.range SubtableSize)).sum +
        ((HashMap.mk sz (m.subtables.set h s')).sub h).size := key
  rw [sub_mk_set_self hlen hh] at key2
  exact key2

/-- `HashMap::insert` of a key already present: no change at all. -/
theorem mapInsert_present {hash : K → Nat} {m : HashMap K V} {e : K × V}
    (hM : MapInv hash m) (hk : HasKeyM m e.1) :
    m.insert hash e = some m := by
  have hsub := (hasKeyM_iff hM e.1).mp hk
  have hins := insert_spec_present (hM.2.1 _ (route_lt hash e.1)) hsub
  unfold HashMap.insert
  dsimp only
  rw [hins]
  simp only [Option.bind_eq_bind, Option.some_bind]
  rw [if_neg (by simp)]
  have hset : m.subtables.set (route hash e.1) (m.sub (route hash e.1)) = m.subtables :=
    list_set_getD (by rw [hM.1]; exact route_lt hash e.1) initSubTable
  rw [hset]
  rfl

/-- `HashMap::insert` of an absent key: the routed subtable receives the
pair, the aggregate size grows by one and the map invariant is kept. -/
theorem mapInsert_absent {hash : K → Nat} {m : HashMap K V} {e : K × V}
    (hM : MapInv hash m) (hk : ¬ HasKeyM m e.1) :
    ∃ m', m.insert hash e = some m' ∧ MapInv hash m' ∧ m'.size = m.size + 1 ∧
      (∀ k v, HasPairM m' k v ↔ ((k, v) = e ∨ HasPairM m k v)) := by
  have hroute := route_lt hash e.1
  have hsub : ¬ HasKey (m.sub (route hash e.1)).capacity
      (m.sub (route hash e.1)).table e.1 := fun h => hk ((hasKeyM_iff hM e.1).mpr h)
  obtain ⟨s1, hins, hInv1, hsz1, _, hcont1⟩ :=
    insert_spec_absent (hM.2.1 _ hroute) hsub
  refine ⟨⟨m.size + 1, m.subtables.set (route hash e.1) s1⟩, ?_, ?_, rfl, ?_⟩
  · unfold HashMap.insert
    dsimp only
    rw [hins]
    simp only [Option.bind_eq_bind, Option.some_bind]
    rw [if_pos trivial]
    rfl
  · refine ⟨by rw [List.length_set]; exact hM.1, ?_, ?_, ?_⟩
    · intro i hi
      by_cases hieq : i = route hash e.1
      · rw [hieq, sub_mk_set_self hM.1 hroute]
        exact hInv1
      · rw [sub_mk_set_ne (fun h => hieq h.symm)]
        exact hM.2.1 i hi
    · intro i hi k hkk
      by_cases hieq : i = route hash e.1
      · subst hieq
        rw [sub_mk_set_self hM.1 hroute] at hkk
        obtain ⟨v, hp⟩ := hasKey_iff_pair.mp hkk
        rcases (hcont1 k v).mp hp with hnew | hold
        · have : k = e.1 := by
            have := congrArg Prod.fst hnew
            exact this
          rw [this]
        · exact hM.2.2.1 _ hroute k (hasKey_iff_pair.mpr ⟨v, hold⟩)
      · rw [sub_mk_set_ne (fun h => hieq h.symm)] at hkk
        exact hM.2.2.1 i hi k hkk
    · show m.size + 1 = HashMap.sumSizes _
      have hsum := sumSizes_mk_set hM.1 hroute (m.size + 1) s1
      have hms : m.size = m.sumSizes := hM.2.2.2
      omega
  · intro k v
    constructor
    · rintro ⟨i, hi, hp⟩
      by_cases hieq : i = route hash e.1
      · subst hieq
        rw [sub_mk_set_self hM.1 hroute] at hp
        rcases (hcont1 k v).mp hp with hnew | hold
        · exact Or.inl hnew
        · exact Or.inr ⟨_, hroute, hold⟩
      · rw [sub_mk_set_ne (fun h => hieq h.symm)] at hp
        exact Or.inr ⟨i, hi, hp⟩
    · rintro (hnew | ⟨i, hi, hp⟩)
      · refine ⟨route hash e.1, hroute, ?_⟩
        rw [sub_mk_set_self hM.1 hroute]
        exact (hcont1 k v).mpr (Or.inl hnew)
      · by_cases hieq : i = route hash e.1
        · subst hieq
          refine ⟨_, hroute, ?_⟩
          rw [sub_mk_set_self hM.1 hroute]
          exact (hcont1 k v).mpr (Or.inr hp)
        · refine ⟨i, hi, ?_⟩
          rw [sub_mk_set_ne (fun h => hieq h.symm)]
          exact hp

/-- `HashMap::erase` of an absent key: the state is unchanged. -/
theorem mapErase_absent {hash : K → Nat} {m : HashMap K V} {key : K}
    (hM : MapInv hash m) (hk : ¬ HasKeyM m key) :
    m.erase hash key = some m := by
  have hsub : ¬ HasKey (m.sub (route hash key)).capacity
      (m.sub (route hash key)).table key := fun h => hk ((hasKeyM_iff hM key).mpr h)
  have hdel := erase_spec_absent (hM.2.1 _ (route_lt hash key)) hsub
  unfold HashMap.erase
  dsimp only
  rw [hdel]
  simp only [Option.bind_eq_bind, Option.some_bind]
  rw [if_neg (by simp)]
  have hset : m.subtables.set (route hash key) (m.sub (route hash key)) = m.subtables :=
    list_set_getD (by rw [hM.1]; exact route_lt hash key) initSubTable
  rw [hset]
  rfl

/-- `HashMap::erase` of a present key: removes exactly that key, drops
the aggregate size by one and keeps the map invariant. -/
theorem mapErase_present {hash : K → Nat} {m : HashMap K V} {key : K}
    (hM : MapInv hash m) (hk : HasKeyM m key) :
    ∃ m', m.erase hash key = some m' ∧ MapInv hash m' ∧ m'.size + 1 = m.size ∧
      (∀ k v, HasPairM m' k v ↔ (HasPairM m k v ∧ k ≠ key)) := by
  have hroute := route_lt hash key
  have hsub := (hasKeyM_iff hM key).mp hk
  obtain ⟨s1, hdel, hInv1, hsz1, hcap1, hcont1⟩ :=
    erase_spec_present (hM.2.1 _ hroute) hsub
  have hN1 : 1 ≤ m.size := by
    obtain ⟨v, hp⟩ := hasKey_iff_pair.mp hsub
    obtain ⟨i, hi, hpi⟩ := hp
    have hc : 1 ≤ countOcc (m.sub (route hash key)).capacity
        (m.sub (route hash key)).table := by
      have hcap : 0 < (m.sub (route hash key)).capacity := (hM.2.1 _ hroute).cap_pos
      have hocc1 : ∀ u, u < 1 →
          (bkt (m.sub (route hash key)).table
            (cyc (m.sub (route hash key)).capacity i u)).payload.isSome = true := by
        intro u hu
        have hu0 : u = 0 := by omega
        rw [hu0, cyc_zero hi, hpi]
        rfl
      exact run_le_countOcc hcap (by omega) hocc1
    have hc2 := (hM.2.1 _ hroute).2.1
    have hsumle : (m.sub (route hash key)).size ≤ m.sumSizes := by
      unfold HashMap.sumSizes
      have hmem : route hash key ∈ List.range SubtableSize := List.mem_range.mpr hroute
      calc (m.sub (route hash key)).size
          = (fun i => ((m : HashMap K V).sub i).size) (route hash key) := rfl
        _ ≤ _ := List.single_le_sum (fun _ _ => Nat.zero_le _) _
            (List.mem_map.mpr ⟨route hash key, hmem, rfl⟩)
    have hms : m.size = m.sumSizes := hM.2.2.2
    omega
  refine ⟨⟨m.size - 1, m.subtables.set (route hash key) s1⟩, ?_, ?_, ?_, ?_⟩
  · unfold HashMap.erase
    dsimp only
    rw [hdel]
    simp only [Option.bind_eq_bind, Option.some_bind]
    rw [if_pos trivial]
    rfl
  · refine ⟨by rw [List.length_set]; exact hM.1, ?_, ?_, ?_⟩
    · intro i hi
      by_cases hieq : i = route hash key
      · rw [hieq, sub_mk_set_self hM.1 hroute]
        exact hInv1
      · rw [sub_mk_set_ne (fun h => hieq h.symm)]
        exact hM.2.1 i hi
    · intro i hi k hkk
      by_cases hieq : i = route hash key
      · subst hieq
        rw [sub_mk_set_self hM.1 hroute] at hkk
        obtain ⟨v, hp⟩ := hasKey_iff_pair.mp hkk
        rw [hcap1] at hp
        have hold := ((hcont1 k v).mp hp).1
        exact hM.2.2.1 _ hroute k (hasKey_iff_pair.mpr ⟨v, hold⟩)
      · rw [sub_mk_set_ne (fun h => hieq h.symm)] at hkk
        exact hM.2.2.1 i hi k hkk
    · show m.size - 1 = HashMap.sumSizes _
      have hsum := sumSizes_mk_set hM.1 hroute (m.size - 1) s1
      have hms : m.size = m.sumSizes := hM.2.2.2
      have hszsub : s1.size + 1 = (m.sub (route hash key)).size := hsz1
      have hsumle : (m.sub (route hash key)).size ≤ m.sumSizes := by
        unfold HashMap.sumSizes
        calc (m.sub (route hash key)).size
            = (fun i => ((m : HashMap K V).sub i).size) (route hash key) := rfl
          _ ≤ _ := List.single_le_sum (fun _ _ => Nat.zero_le _) _
              (List.mem_map.mpr ⟨route hash key, List.mem_range.mpr hroute, rfl⟩)
      omega
  · show m.size - 1 + 1 = m.size
    omega
  · intro k v
    constructor
    · rintro ⟨i, hi, hp⟩
      by_cases hieq : i = route hash key
      · subst hieq
        rw [sub_mk_set_self hM.1 hroute, hcap1] at hp
        obtain ⟨hold, hne⟩ := (hcont1 k v).mp hp
        exact ⟨⟨_, hroute, hold⟩, hne⟩
      · rw [sub_mk_set_ne (fun h => hieq h.symm)] at hp
        refine ⟨⟨i, hi, hp⟩, ?_⟩
        intro hkey
        subst hkey
        apply hieq
        exact hM.2.2.1 i hi k (hasKey_iff_pair.mpr ⟨v, hp⟩) ▸ rfl
    · rintro ⟨⟨i, hi, hp⟩, hne⟩
      by_cases hieq : i = route hash key
      · subst hieq
        refine ⟨_, hroute, ?_⟩
        rw [sub_mk_set_self hM.1 hroute, hcap1]
        exact (hcont1 k v).mpr ⟨hp, hne⟩
      · refine ⟨i, hi, ?_⟩
        rw [sub_mk_set_ne (fun h => hieq h.symm)]
        exact hp

/-- `HashMap::find` of a stored pair returns an iterator onto the routed
subtable. -/
theorem mapFind_present {hash : K → Nat} {m : HashMap K V} {key : K} {v : V}
    (hM : MapInv hash m) (hp : HasPairM m key v) :
    ∃ i, m.find hash key = some (some (route hash key, i)) ∧
      (bkt (m.sub (route hash key)).table i).payload = some (key, v) := by
  have hsub := (hasPairM_iff hM key v).mp hp
  obtain ⟨i, hfind, hpx⟩ :=
    find_complete (hM.2.1 _ (route_lt hash key)).1
      (hM.2.1 _ (route_lt hash key)).cap_pos hsub
  refine ⟨i, ?_, hpx⟩
  unfold HashMap.find
  dsimp only
  rw [hfind]
  rfl

/-- `HashMap::find` of an absent key returns `end()`. -/
theorem mapFind_absent {hash : K → Nat} {m : HashMap K V} {key : K}
    (hM : MapInv hash m) (hnk : ¬ HasKeyM m key) :
    m.find hash key = some none := by
  have hsub : ¬ HasKey (m.sub (route hash key)).capacity
      (m.sub (route hash key)).table key := fun h => hnk ((hasKeyM_iff hM key).mpr h)
  have hInvS := hM.2.1 _ (route_lt hash key)
  have hfind := (find_none_iff hInvS.1 hInvS.countOcc_lt hInvS.cap_pos).mpr hsub
  unfold HashMap.find
  dsimp only
  rw [hfind]
  rfl

/-- `HashMap::at` of a stored pair returns the stored value. -/
theorem mapAt_present {hash : K → Nat} {m : HashMap K V} {key : K} {v : V}
    (hM : MapInv hash m) (hp : HasPairM m key v) :
    m.at' hash key = some (some v) := by
  have hsub := (hasPairM_iff hM key v).mp hp
  unfold HashMap.at'
  exact at_spec_present (hM.2.1 _ (route_lt hash key)) hsub

/-- `HashMap::at` of an absent key surfaces the subtable's missing-key
failure unchanged. -/
theorem mapAt_absent {hash : K → Nat} {m : HashMap K V} {key : K}
    (hM : MapInv hash m) (hnk : ¬ HasKeyM m key) :
    m.at' hash key = some none := by
  have hsub : ¬ HasKey (m.sub (route hash key)).capacity
      (m.sub (route hash key)).table key := fun h => hnk ((hasKeyM_iff hM key).mpr h)
  unfold HashMap.at'
  exact at_spec_absent (hM.2.1 _ (route_lt hash key)) hsub

/-! ## Decidability of the stated invariants (for concrete witnesses) -/

instance instDecSlotPslOk (hash : K → Nat) (cap : Nat) (t : List (Bucket K V))
    (i : Nat) : Decidable (slotPslOk hash cap t i) := by
  unfold slotPslOk
  infer_instance

instance instDecSlotRunOk (cap : Nat) (t : List (Bucket K V)) (i : Nat) :
    Decidable (slotRunOk cap t i) := by
  unfold slotRunOk
  infer_instance

instance instDecSlotWeakOk (cap : Nat) (t : List (Bucket K V)) (i : Nat) :
    Decidable (slotWeakOk cap t i) := by
  unfold slotWeakOk
  infer_instance

instance instDecSlotsUniq (cap : Nat) (t : List (Bucket K V)) :
    Decidable (slotsUniq cap t) := by
  unfold slotsUniq
  infer_instance

instance instDecTblOk (hash : K → Nat) (cap : Nat) (t : List (Bucket K V)) :
    Decidable (TblOk hash cap t) := by
  unfold TblOk
  infer_instance

instance instDecWeakRH (hash : K → Nat) (s : SubTable K V) :
    Decidable (WeakRH hash s) := by
  unfold WeakRH
  infer_instance

instance instDecHasPair (cap : Nat) (t : List (Bucket K V)) (k : K) (v : V) :
    Decidable (HasPair cap t k v) := by
  unfold HasPair
  infer_instance

instance instDecHasKey (cap : Nat) (t : List (Bucket K V)) (k : K) :
    Decidable (HasKey cap t k) := by
  unfold HasKey
  infer_instance

instance instDecHasKeyM (m : HashMap K V) (k : K) :
    Decidable (HasKeyM m k) := by
  unfold HasKeyM
  infer_instance

instance instDecHasPairM (m : HashMap K V) (k : K) (v : V) :
    Decidable (HasPairM m k v) := by
  unfold HasPairM
  infer_instance

/-! ## The claims -/

/-- A valid 16-slot Robin-Hood subtable under the identity hash: keys
0, 16, 32 collide at home slot 0 and 17, 33 at home slot 1, producing the
stored PSLs 0, 1, 2, 2, 3. -/
def s0 : SubTable Nat Nat :=
  ⟨5, 16,
   [⟨some (0, 0), 0⟩, ⟨some (16, 1), 1⟩, ⟨some (32, 2), 2⟩,
    ⟨some (17, 3), 2⟩, ⟨some (33, 4), 3⟩] ++ List.replicate 11 ⟨none, 0⟩⟩

/-- C1 is refuted as stated: on the valid table `s0` (the Robin-Hood
invariant holds), inserting key 48 places the displaced run with PSLs that
differ from the spec's recursive evict-and-reinsert (`specInsert`) — the
block shift increments every shifted PSL by exactly one, the spec's
algorithm re-derives them from the eviction chain. -/
theorem claim_C1_counterexample :
    WeakRH id s0 ∧ TblOk id s0.capacity s0.table ∧
      SubTable.InsertElement id s0 (48, 5) ≠ specInsert id s0 (48, 5) :=
  ⟨by decide, by decide, by decide⟩

/-- C1 (amended): on every valid subtable state, `InsertElement` probes
from the home slot exactly as the spec's §4.2 walk prescribes (forward
while occupied with stored PSL ≥ candidate PSL, ties keeping the
resident), but resolves the stop-slot collision by shifting the whole
contiguous occupied run forward one slot in a single block, adding one to
each shifted resident's PSL, and writing the newcomer at the stop slot
with the candidate PSL — the behaviour `shiftSpec` states. -/
theorem claim_C1 {hash : K → Nat} {s : SubTable K V} {e : K × V}
    (hT : TblOk hash s.capacity s.table)
    (hcount : countOcc s.capacity s.table < s.capacity)
    (hcap : 0 < s.capacity) :
    s.InsertElement hash e = shiftSpec hash s e := by
  have hhome : hash e.1 % s.capacity < s.capacity := Nat.mod_lt _ hcap
  obtain ⟨e0, he0lt, hemp, hoccs⟩ := exists_firstEmpty hcount hcap hhome
  obtain ⟨p, _, hpe0, hprobe, hwalk, hstop⟩ :=
    probeStart_go (t := s.table) hcap hemp s.capacity 0 (Nat.zero_le e0) (by omega)
  have hjlt : cyc s.capacity (hash e.1 % s.capacity) p < s.capacity := cyc_lt _ p hcap
  have hrunj : ∀ u, u < e0 - p →
      (bkt s.table
        (cyc s.capacity (cyc s.capacity (hash e.1 % s.capacity) p) u)).payload.isSome =
        true := by
    intro u hu
    rw [cyc_add]
    exact hoccs (p + u) (by omega)
  have hempj : (bkt s.table
      (cyc s.capacity (cyc s.capacity (hash e.1 % s.capacity) p) (e0 - p))).payload =
      none := by
    rw [cyc_add, show p + (e0 - p) = e0 from by omega]
    exact hemp
  have hshift := shiftLoop_go hjlt hT.1 (by omega) hrunj hempj s.capacity 0
    (Nat.zero_le _) (by omega)
  rw [shiftTable_zero hjlt hT.1, cyc_zero hjlt] at hshift
  have hrl := runLen_go hrunj hempj s.capacity 0 (Nat.zero_le _) (by omega)
  unfold SubTable.InsertElement shiftSpec
  rw [cyc_zero hhome] at hprobe
  rw [hprobe]
  simp only [Option.bind_eq_bind, Option.some_bind]
  rw [hshift, hrl]
  simp only [Option.some_bind]

/-- The amended C1 at a concrete input: on `s0` the code's insertion
coincides with the block-shift description. -/
theorem claim_C1_witness :
    TblOk id s0.capacity s0.table ∧ countOcc s0.capacity s0.table < s0.capacity ∧
      0 < s0.capacity ∧
      SubTable.InsertElement id s0 (48, 5) = shiftSpec id s0 (48, 5) :=
  ⟨by decide, by decide, by decide, claim_C1 (by decide) (by decide) (by decide)⟩

/-- C2: in every subtable state reachable from a fresh table by public
operations (insert, erase, `operator[]`, clear), every occupied slot's
stored PSL equals its ring distance from the key's home slot, and the
preceding slot is empty or stores PSL ≥ p − 1; insertion and erase
preserve this invariant. -/
theorem claim_C2 {hash : K → Nat} (ops : List (SubOp K V)) {s : SubTable K V}
    (h : runSub hash ops initSubTable = some s) : WeakRH hash s :=
  (runSub_Inv_init h).weakRH

/-- Concrete operation sequence for the C2 witness. -/
def ops2 : List (SubOp Nat Nat) := [SubOp.ins (3, 7), SubOp.ins (11, 1), SubOp.del 3]

/-- The state `ops2` reaches from a fresh subtable. -/
def st2 : SubTable Nat Nat := (runSub id ops2 initSubTable).getD initSubTable

/-- C2 exercised on a concrete operation sequence ending in a non-empty
state. -/
theorem claim_C2_witness :
    runSub id ops2 initSubTable = some st2 ∧ WeakRH id st2 :=
  ⟨by decide, claim_C2 ops2 (by decide)⟩

/-- C4: every reachable subtable satisfies the load-factor ceiling
`2·size ≤ capacity` with the capacity a power of two starting at 8; an
insertion of an absent key resizes — doubling the capacity while keeping
the invariant (PSLs recomputed against the new capacity) and re-inserting
exactly the live entries — precisely when the updated size reaches half
the capacity. -/
theorem claim_C4 {hash : K → Nat} (ops : List (SubOp K V)) {s : SubTable K V}
    (h : runSub hash ops initSubTable = some s) (e : K × V)
    (hnk : ¬ HasKey s.capacity s.table e.1) :
    (2 * s.size ≤ s.capacity ∧ ∃ m, s.capacity = 8 * 2 ^ m) ∧
    (∃ s', s.insert hash e = some (true, s') ∧ Inv hash s' ∧
      ((2 * (s.size + 1) < s.capacity ∧ s'.capacity = s.capacity) ∨
        (s.capacity ≤ 2 * (s.size + 1) ∧ s'.capacity = s.capacity * 2)) ∧
      (∀ k v, HasPair s'.capacity s'.table k v ↔
        ((k, v) = e ∨ HasPair s.capacity s.table k v))) := by
  have hInv := runSub_Inv_init h
  refine ⟨⟨hInv.2.2.1, hInv.2.2.2⟩, ?_⟩
  obtain ⟨s', h1, h2, _, h4, h5⟩ := insert_spec_absent hInv hnk
  exact ⟨s', h1, h2, h4, h5⟩

/-- Concrete operation sequence for the C4 witness: three keys in a fresh
table, so the next insertion reaches half of capacity 8 and must double. -/
def ops4 : List (SubOp Nat Nat) := [SubOp.ins (1, 1), SubOp.ins (2, 2), SubOp.ins (3, 3)]

/-- The state `ops4` reaches from a fresh subtable. -/
def st4 : SubTable Nat Nat := (runSub id ops4 initSubTable).getD initSubTable

/-- C4 exercised at the resize boundary. -/
theorem claim_C4_witness :
    runSub id ops4 initSubTable = some st4 ∧
    ¬ HasKey st4.capacity st4.table 4 ∧
    ((2 * st4.size ≤ st4.capacity ∧ ∃ m, st4.capacity = 8 * 2 ^ m) ∧
     (∃ s', st4.insert id (4, 4) = some (true, s') ∧ Inv id s' ∧
       ((2 * (st4.size + 1) < st4.capacity ∧ s'.capacity = st4.capacity) ∨
         (st4.capacity ≤ 2 * (st4.size + 1) ∧ s'.capacity = st4.capacity * 2)) ∧
       (∀ k v, HasPair s'.capacity s'.table k v ↔
         ((k, v) = (4, 4) ∨ HasPair st4.capacity st4.table k v)))) :=
  ⟨by decide, by decide, claim_C4 ops4 (by decide) (4, 4) (by decide)⟩

/-- C5: `SubTable::insert` returns `true` and increments `size` exactly
when the key is absent (adding precisely that pair); on a present key it
returns `false` and leaves the state — in particular the stored value —
unchanged; `HashMap::insert` increments the aggregate size precisely when
the routed subtable reports a new insertion (and is a no-op otherwise). -/
theorem claim_C5 {hash : K → Nat} {s : SubTable K V} {m : HashMap K V}
    (hInv : Inv hash s) (hM : MapInv hash m) (e : K × V) :
    ((HasKey s.capacity s.table e.1 → s.insert hash e = some (false, s)) ∧
     (¬ HasKey s.capacity s.table e.1 →
       ∃ s', s.insert hash e = some (true, s') ∧ s'.size = s.size + 1 ∧
         (∀ k v, HasPair s'.capacity s'.table k v ↔
           ((k, v) = e ∨ HasPair s.capacity s.table k v)))) ∧
    ((HasKeyM m e.1 → m.insert hash e = some m) ∧
     (¬ HasKeyM m e.1 →
       ∃ m', m.insert hash e = some m' ∧ m'.size = m.size + 1)) := by
  refine ⟨⟨fun hk => insert_spec_present hInv hk, fun hnk => ?_⟩,
    fun hk => mapInsert_present hM hk, fun hnk => ?_⟩
  · obtain ⟨s', h1, _, h3, _, h5⟩ := insert_spec_absent hInv hnk
    exact ⟨s', h1, h3, h5⟩
  · obtain ⟨m', h1, _, h3, _⟩ := mapInsert_absent hM hnk
    exact ⟨m', h1, h3⟩

/-- A fresh subtable and a fresh map over concrete types, for witnesses. -/
def sub0 : SubTable Nat Nat := initSubTable

/-- A fresh map over concrete types, for witnesses. -/
def map0 : HashMap Nat Nat := initHashMap

/-- C5 at a fresh subtable and a fresh map. -/
theorem claim_C5_witness :
    Inv id sub0 ∧ MapInv id map0 ∧
    (((HasKey sub0.capacity sub0.table 2 →
        SubTable.insert id sub0 (2, 9) = some (false, sub0)) ∧
      (¬ HasKey sub0.capacity sub0.table 2 →
        ∃ s', SubTable.insert id sub0 (2, 9) = some (true, s') ∧
          s'.size = sub0.size + 1 ∧
          (∀ k v, HasPair s'.capacity s'.table k v ↔
            ((k, v) = (2, 9) ∨ HasPair sub0.capacity sub0.table k v)))) ∧
     ((HasKeyM map0 2 → HashMap.insert id map0 (2, 9) = some map0) ∧
      (¬ HasKeyM map0 2 →
        ∃ m', HashMap.insert id map0 (2, 9) = some m' ∧
          m'.size = map0.size + 1))) :=
  ⟨Inv_init, MapInv_init, claim_C5 Inv_init MapInv_init (2, 9)⟩

/-- C9: under the invariant (which the load-factor ceiling keeps
reachable states in, so an empty slot always exists), the probe loops of
`find`, of `InsertElement` — including the shift loop — and of `erase` —
including back-shift compaction — all terminate within their fuel of
`capacity` slot visits: none of the fuelled loops returns `none`. -/
theorem claim_C9 {hash : K → Nat} {s : SubTable K V} (hInv : Inv hash s)
    (key : K) (e : K × V) :
    (s.find hash key).isSome = true ∧
    (s.InsertElement hash e).isSome = true ∧
    (s.insert hash e).isSome = true ∧
    (s.erase hash key).isSome = true := by
  have hcnt := hInv.countOcc_lt
  have hcap := hInv.cap_pos
  refine ⟨find_term hcnt hcap, ?_, ?_, ?_⟩
  · obtain ⟨p, e0, _, _, _, _, _, _, heq⟩ := InsertElement_run e hInv.1 hcnt hcap
    rw [heq]
    rfl
  · by_cases hk : HasKey s.capacity s.table e.1
    · rw [insert_spec_present hInv hk]
      rfl
    · obtain ⟨s', h1, _⟩ := insert_spec_absent hInv hk
      rw [h1]
      rfl
  · by_cases hk : HasKey s.capacity s.table key
    · obtain ⟨s', h1, _⟩ := erase_spec_present hInv hk
      rw [h1]
      rfl
    · rw [erase_spec_absent hInv hk]
      rfl

/-- C9 at a concrete valid state. -/
theorem claim_C9_witness :
    Inv id s0 ∧
    ((SubTable.find id s0 17).isSome = true ∧
     (SubTable.InsertElement id s0 (48, 5)).isSome = true ∧
     (SubTable.insert id s0 (48, 5)).isSome = true ∧
     (SubTable.erase id s0 17).isSome = true) :=
  ⟨⟨by decide, by decide, by decide, 1, by decide⟩,
   claim_C9 ⟨by decide, by decide, by decide, 1, by decide⟩ 17 (48, 5)⟩

/-- C10: erasing a key that is not in the container changes nothing: the
routed subtable's `erase` reports `false` and `HashMap::erase` returns
the map bitwise unchanged — every slot, PSL, capacity and the reported
size included. -/
theorem claim_C10 {hash : K → Nat} {m : HashMap K V} {key : K}
    (hM : MapInv hash m) (hnk : ¬ HasKeyM m key) :
    (m.sub (route hash key)).erase hash key =
      some (false, m.sub (route hash key)) ∧
    m.erase hash key = some m := by
  have hsub : ¬ HasKey (m.sub (route hash key)).capacity
      (m.sub (route hash key)).table key := fun h => hnk ((hasKeyM_iff hM key).mpr h)
  exact ⟨erase_spec_absent (hM.2.1 _ (route_lt hash key)) hsub,
    mapErase_absent hM hnk⟩

/-- C10 at a fresh map. -/
theorem claim_C10_witness :
    MapInv id map0 ∧ ¬ HasKeyM map0 7 ∧
    (SubTable.erase id (map0.sub (route id 7)) 7 =
      some (false, map0.sub (route id 7)) ∧
     HashMap.erase id map0 7 = some map0) :=
  ⟨MapInv_init, by decide, claim_C10 MapInv_init (by decide)⟩

/-- C7: `at` raises the missing-key failure exactly when the key is
absent — the map forwards the routed subtable's failure unchanged (the
two calls are one and the same) — and on a present key returns content
equal to the stored value. -/
theorem claim_C7 {hash : K → Nat} {m : HashMap K V} (hM : MapInv hash m)
    (key : K) :
    m.at' hash key = (m.sub (route hash key)).at' hash key ∧
    (¬ HasKeyM m key → m.at' hash key = some none) ∧
    (∀ v, HasPairM m key v → m.at' hash key = some (some v)) :=
  ⟨rfl, fun hnk => mapAt_absent hM hnk, fun v hp => mapAt_present hM hp⟩

/-- C7 at a fresh map (absent side) and after one insertion (present
side, exercised through the invariant theorems). -/
theorem claim_C7_witness :
    MapInv id map0 ∧
    (HashMap.at' id map0 9 = (map0.sub (route id 9)).at' id 9 ∧
     (¬ HasKeyM map0 9 → HashMap.at' id map0 9 = some none) ∧
     (∀ v, HasPairM map0 9 v → HashMap.at' id map0 9 = some (some v))) :=
  ⟨MapInv_init, claim_C7 MapInv_init 9⟩

/-- C6: on a well-formed map where `k` is absent, `insert (k,v)` then
`erase k` restores the original observable state: `find k` is `end()`,
the size is back to its old value, every other pair is present exactly as
before and still reachable by `find`. -/
theorem claim_C6 {hash : K → Nat} {m : HashMap K V} (hM : MapInv hash m)
    (k : K) (v : V) (hnk : ¬ HasKeyM m k) :
    ∃ m1 m2, m.insert hash (k, v) = some m1 ∧ m1.erase hash k = some m2 ∧
      m2.find hash k = some none ∧ m2.size = m.size ∧
      (∀ q w, q ≠ k → (HasPairM m2 q w ↔ HasPairM m q w)) ∧
      (∀ q w, q ≠ k → HasPairM m q w →
        ∃ i, m2.find hash q = some (some (route hash q, i))) := by
  obtain ⟨m1, hins, hM1, hsz1, hcont1⟩ :=
    mapInsert_absent hM (show ¬ HasKeyM m (Prod.mk k v).1 from hnk)
  have hk1 : HasKeyM m1 k := by
    obtain ⟨i, hi, hp⟩ := (hcont1 k v).mpr (Or.inl rfl)
    exact ⟨i, hi, hasKey_iff_pair.mpr ⟨v, hp⟩⟩
  obtain ⟨m2, hdel, hM2, hsz2, hcont2⟩ := mapErase_present hM1 hk1
  have hiff : ∀ q w, q ≠ k → (HasPairM m2 q w ↔ HasPairM m q w) := by
    intro q w hq
    rw [hcont2 q w]
    constructor
    · rintro ⟨h1, _⟩
      rcases (hcont1 q w).mp h1 with heq | hold
      · exact absurd (congrArg Prod.fst heq) hq
      · exact hold
    · intro hold
      exact ⟨(hcont1 q w).mpr (Or.inr hold), hq⟩
  have hnk2 : ¬ HasKeyM m2 k := by
    rintro ⟨i, hi, hk2⟩
    obtain ⟨w, hp⟩ := hasKey_iff_pair.mp hk2
    exact (((hcont2 k w).mp ⟨i, hi, hp⟩).2) rfl
  refine ⟨m1, m2, hins, hdel, mapFind_absent hM2 hnk2, by omega, hiff, ?_⟩
  intro q w hq hold
  obtain ⟨i, hfind, _⟩ := mapFind_present hM2 ((hiff q w hq).mpr hold)
  exact ⟨i, hfind⟩

/-- C6 at a fresh map: insert key 3, erase it, observe restoration. -/
theorem claim_C6_witness :
    MapInv id map0 ∧ ¬ HasKeyM map0 3 ∧
    (∃ m1 m2, HashMap.insert id map0 (3, 5) = some m1 ∧
      m1.erase id 3 = some m2 ∧ m2.find id 3 = some none ∧
      m2.size = map0.size ∧
      (∀ q w, q ≠ 3 → (HasPairM m2 q w ↔ HasPairM map0 q w)) ∧
      (∀ q w, q ≠ 3 → HasPairM map0 q w →
        ∃ i, m2.find id q = some (some (route id q, i)))) :=
  ⟨MapInv_init, by decide, claim_C6 MapInv_init 3 5 (by decide)⟩

/-! ## C3 / C8: the sharing bug of copy construction and assignment

`HashMap(const HashMap&)` and `operator=` copy `size_`, allocate eight
fresh subtables via `InitializeSubtables`, then overwrite every directory
entry with `subtables_[i] = other.subtables_[i]` — copying the
`shared_ptr`s, not the subtables.  The copy therefore aliases the
original's subtables: a subsequent mutation of either map is observable
through the other, and the copy's `size_` (copied once, never updated
through the alias) disagrees with both its iteration count and the sum of
its subtables' sizes.  The trace below exhibits this on the heap model:
make map `A`, copy it to `B`, insert `(0, 0)` into `A`. -/

/-- Fresh map `A` on an empty heap. -/
def trace0 : Heap Nat Nat × HMapRef := hmNew []

/-- Copy-construct `B` from `A`. -/
def trace1 : Heap Nat Nat × HMapRef := hmCopy trace0.1 trace0.2

/-- Insert `(0, 0)` into `A` after the copy. -/
def trace2 : Heap Nat Nat × HMapRef :=
  (hmInsert id trace1.1 trace0.2 (0, 0)).getD (trace1.1, trace0.2)

/-- C3 is a bug in the code: after `B` is copy-constructed from `A`,
`B.find(0)` is `end()`; inserting `(0, 0)` into `A` alone then makes
`B.find(0)` return the new pair — the copy shares A's subtables instead
of deep-copying them, so mutations on `A` change `B`'s observable
contents. -/
theorem claim_C3 :
    (hmInsert id trace1.1 trace0.2 (0, 0)).isSome = true ∧
    hmFind id trace1.1 trace1.2 0 = some none ∧
    hmFind id trace2.1 trace1.2 0 = some (some (0, 0)) := by
  refine ⟨by decide, by decide, by decide⟩

/-- C8 is a bug in the code: on the same trace, `B`'s reported size stays
0 (its `size_` member was copied once and is not shared), while iterating
`B` from `begin` to `end` yields 1 pair and the sizes of `B`'s subtables
sum to 1 — the size-consistency invariant fails after copy construction
followed by a mutation of the original. -/
theorem claim_C8 :
    hmSize trace1.2 = 0 ∧
    hmPairs trace2.1 trace1.2 = 1 ∧
    hmSumSizes trace2.1 trace1.2 = 1 := by
  refine ⟨by decide, by decide, by decide⟩

end Dysect
